import Mathlib

/-!
# Verification of the sanitize module (output-sanitization core)

Shallow embedding of `src/python/sanitize.py`: the trusted-value model
(`SanitizedContent` and its variants), the dispatch-layer escaping
directives, and the tag-stripping / tag-balancing algorithm
(`_strip_html_tags`, `_tag_sub_handler`, `_balance_tags`).

Primitives of the external escaping backend (`generated_sanitize`, which is
not part of this repository's sources here) are modelled from the spec and
carry a doc comment starting `Modelled from the spec:`.
-/

namespace Sanitize

/-! ## Characters and small utilities -/

/-- First character of a tag name (the modelled tag grammar): an ASCII letter. -/
def isNameStart (c : Char) : Bool := c.isAlpha

/-- Subsequent characters of a tag name (the modelled tag grammar). -/
def isNameChar (c : Char) : Bool := c.isAlpha || c.isDigit

/-- ASCII lower-casing of one character, the effect of Python's
`str.lower()` on the ASCII tag names matched by the scanner. -/
def lowerChar (c : Char) : Char :=
  if 'A' ≤ c && c ≤ 'Z' then Char.ofNat (c.toNat + 32) else c

/-- Lower-casing of a string (`name.lower()` in `_tag_sub_handler`). -/
def lowerStr (s : String) : String := String.mk (s.toList.map lowerChar)

/-- Decimal digit character, used for rendering `'[%d]' % index` markers. -/
def digitChar : Nat → Char
  | 0 => '0' | 1 => '1' | 2 => '2' | 3 => '3' | 4 => '4'
  | 5 => '5' | 6 => '6' | 7 => '7' | 8 => '8' | _ => '9'

/-- Numeric value of a decimal digit character. -/
def digitVal (c : Char) : Nat := c.toNat - 48

/-- Decimal rendering of a natural number (`'%d' % k`), most significant
digit first, no leading zeros. -/
def natDigits : Nat → List Char
  | k =>
    if h : k < 10 then [digitChar k]
    else natDigits (k / 10) ++ [digitChar (k % 10)]
decreasing_by exact Nat.div_lt_self (by omega) (by omega)

/-- Parsing a digit run back to a number, as `int(match.group(1))` does for
the `\[(\d+)\]` replacement-marker pattern. -/
def digitsToNat (ds : List Char) : Nat := ds.foldl (fun n c => 10 * n + digitVal c) 0

/-! ## Data model: content kinds, direction, approval -/

/-- `CONTENT_KIND`: closed set of content kinds (sanitize.py lines 389-395). -/
inductive ContentKind where
  | HTML | JS | JS_STR_CHARS | URI | ATTRIBUTES | CSS | TEXT
deriving DecidableEq, Repr

/-- `DIR`: directionality constants LTR = 1, NEUTRAL = 0, RTL = -1. -/
def DIR.LTR : Int := 1
def DIR.NEUTRAL : Int := 0
def DIR.RTL : Int := -1

/-- `IActuallyUnderstandSoyTypeSafetyAndHaveSecurityApproval`: the approval
capability; `justification` stays `None` unless a truthy (non-empty) string
is supplied to the constructor. -/
structure Approval where
  justification : Option String
deriving DecidableEq, Repr

/-- The approval constructor: `__init__(self, justification=None)` only sets
the field when the argument is truthy. -/
def Approval.make (justification : String) : Approval :=
  ⟨if justification = "" then none else some justification⟩

/-- The error raised by `SanitizedContent.__init__` when the approval
capability is missing or under-justified (a `TypeError` in the source; the
spec's `CapabilityError`). -/
inductive SanitizeError where
  | capabilityError
deriving DecidableEq, Repr

/-- A constructed trusted value: kind discriminant, content, direction. -/
structure Sanitized where
  content_kind : ContentKind
  content : String
  content_dir : Option Int
deriving DecidableEq, Repr

/-- The approval check of `SanitizedContent.__init__`: the approval object
must be present and carry a truthy justification of length ≥ 20. -/
def checkApproval : Option Approval → Bool
  | none => false
  | some a =>
    match a.justification with
    | none => false
    | some j => decide (j ≠ "") && decide (20 ≤ j.length)

/-- `SanitizedContent.__init__` as a smart constructor for a concrete kind:
errors unless the approval check passes. -/
def SanitizedContent.make (kind : ContentKind) (content : String)
    (content_dir : Option Int) (approval : Option Approval) :
    Except SanitizeError Sanitized :=
  if checkApproval approval then
    .ok ⟨kind, content, content_dir⟩
  else
    .error .capabilityError

/-- `SanitizedHtml(content, content_dir, approval)`: base init, kind HTML. -/
def SanitizedHtml.make (content : String) (content_dir : Option Int)
    (approval : Option Approval) : Except SanitizeError Sanitized :=
  SanitizedContent.make .HTML content content_dir approval

/-- `SanitizedCss(content, approval)`: fixes direction to LTR. -/
def SanitizedCss.make (content : String) (approval : Option Approval) :
    Except SanitizeError Sanitized :=
  SanitizedContent.make .CSS content (some DIR.LTR) approval

/-- `SanitizedHtmlAttribute(content, approval)`: fixes direction to LTR. -/
def SanitizedHtmlAttribute.make (content : String) (approval : Option Approval) :
    Except SanitizeError Sanitized :=
  SanitizedContent.make .ATTRIBUTES content (some DIR.LTR) approval

/-- `SanitizedJs(content, approval)`: fixes direction to LTR. -/
def SanitizedJs.make (content : String) (approval : Option Approval) :
    Except SanitizeError Sanitized :=
  SanitizedContent.make .JS content (some DIR.LTR) approval

/-- `SanitizedJsStrChars(content, content_dir, approval)`: base init. -/
def SanitizedJsStrChars.make (content : String) (content_dir : Option Int)
    (approval : Option Approval) : Except SanitizeError Sanitized :=
  SanitizedContent.make .JS_STR_CHARS content content_dir approval

/-- `SanitizedUri(content, approval)`: fixes direction to LTR. -/
def SanitizedUri.make (content : String) (approval : Option Approval) :
    Except SanitizeError Sanitized :=
  SanitizedContent.make .URI content (some DIR.LTR) approval

/-- `UnsanitizedText(content, content_dir, approval)`: discards the supplied
approval and synthesizes its own
(`'Unsanitized Text does not require approval.'`), so construction always
succeeds. -/
def UnsanitizedText.make (content : String) (content_dir : Option Int)
    (_approval : Option Approval) : Except SanitizeError Sanitized :=
  SanitizedContent.make .TEXT content content_dir
    (some (Approval.make "Unsanitized Text does not require approval."))

/-! ## Runtime values seen by the escaping directives -/

/-- The runtime values the public directives receive: `None`, plain strings,
ints, booleans (a Python `bool` is an `int`, hence "numeric"), or an
already-sanitized value. -/
inductive SoyValue where
  | nullV
  | strV (s : String)
  | intV (n : Int)
  | boolV (b : Bool)
  | sanV (v : Sanitized)
deriving DecidableEq, Repr

/-- `str(value)` for the values modelled here; `SanitizedContent.__str__`
returns the content. -/
def pyStr : SoyValue → String
  | .nullV => "None"
  | .strV s => s
  | .intV n => toString n
  | .boolV b => if b then "True" else "False"
  | .sanV v => v.content

/-- `is_content_kind(value, content_kind)` (sanitize.py lines 247-249). -/
def is_content_kind (value : SoyValue) (kind : ContentKind) : Bool :=
  match value with
  | .sanV v => v.content_kind = kind
  | _ => false

/-- `isinstance(value, (int, long, float, complex))`: of the values modelled
here, ints and booleans are numeric (Python `bool` subclasses `int`). -/
def isNumeric : SoyValue → Bool
  | .intV _ => true
  | .boolV _ => true
  | _ => false

/-- `_INNOCUOUS_OUTPUT`: the fixed innocuous replacement marker. -/
def innocuousOutput : String := "zSoyz"

/-! ## The tag scanner (spec-modelled tag grammar) -/

/-- One result of the scan: either a plain character or a tag-shaped match. -/
inductive Piece where
  | chr (c : Char)
  | tag (isClose : Bool) (name : String)
deriving DecidableEq, Repr

/-- Skip up to and past the next `>`; `none` when no `>` remains. -/
def dropUntilGt : List Char → Option (List Char)
  | [] => none
  | c :: cs => if c = '>' then some cs else dropUntilGt cs

/-- Parse a tag name: a letter followed by letters/digits. Returns the name
and the remaining characters. -/
def parseName : List Char → Option (String × List Char)
  | [] => none
  | c :: rest =>
    if isNameStart c then
      some (String.mk (c :: rest.takeWhile isNameChar), rest.dropWhile isNameChar)
    else none

/-- Body of a tag match after the optional `/`: a name, then anything up to
the closing `>`. -/
def parseTagBody (isCl : Bool) (cs : List Char) : Option (Bool × String × List Char) :=
  match parseName cs with
  | some (nm, rest) =>
    match dropUntilGt rest with
    | some after => some (isCl, nm, after)
    | none => none
  | none => none

/-- Modelled from the spec: the grammar-correct tag pattern supplied by the
escaping backend (`generated_sanitize._HTML_TAG_REGEX`), which is not among
this repository's sources. Per the spec it matches tag-shaped substrings of
the form `<name ...>` or `</name ...>`; here, at a `<`, an optional `/`,
then a name (letter then letters/digits), then anything up to the next `>`. -/
def parseTagAt : List Char → Option (Bool × String × List Char)
  | '/' :: r => parseTagBody true r
  | cs => parseTagBody false cs

theorem length_dropWhile_le (p : Char → Bool) (l : List Char) :
    (l.dropWhile p).length ≤ l.length := by
  induction l with
  | nil => simp [List.dropWhile]
  | cons c cs ih => cases h : p c <;> simp [List.dropWhile, h] <;> omega

theorem dropUntilGt_length {cs r : List Char} (h : dropUntilGt cs = some r) :
    r.length < cs.length := by
  induction cs generalizing r with
  | nil => simp [dropUntilGt] at h
  | cons c cs ih =>
    by_cases hc : c = '>'
    · simp [dropUntilGt, hc] at h
      subst h
      simp
    · simp [dropUntilGt, hc] at h
      exact Nat.lt_succ_of_lt (ih h)

theorem parseName_length {cs rest : List Char} {nm : String}
    (h : parseName cs = some (nm, rest)) : rest.length < cs.length := by
  cases cs with
  | nil => simp [parseName] at h
  | cons c r =>
    by_cases hs : isNameStart c
    · simp only [parseName, hs, if_true, Option.some.injEq, Prod.mk.injEq] at h
      obtain ⟨h1, h2⟩ := h
      subst h2
      have hd := length_dropWhile_le isNameChar r
      simp only [List.length_cons]
      omega
    · simp [parseName, hs] at h

theorem parseTagBody_length {b isCl : Bool} {cs after : List Char} {nm : String}
    (h : parseTagBody b cs = some (isCl, nm, after)) : after.length < cs.length := by
  unfold parseTagBody at h
  split at h
  · rename_i nm' rest' hn
    split at h
    · rename_i r hg
      simp only [Option.some.injEq, Prod.mk.injEq] at h
      obtain ⟨h1, h2, h3⟩ := h
      subst h3
      have ha := parseName_length hn
      have hb := dropUntilGt_length hg
      omega
    · simp at h
  · simp at h

theorem parseTagAt_length {cs after : List Char} {isCl : Bool} {nm : String}
    (h : parseTagAt cs = some (isCl, nm, after)) : after.length < cs.length := by
  unfold parseTagAt at h
  split at h
  · have := parseTagBody_length h
    simp only [List.length_cons]
    omega
  · exact parseTagBody_length h

/-- The single left-to-right non-overlapping scan of `re.sub` with the tag
pattern: characters not starting a tag match are kept as `.chr` pieces; tag
matches become `.tag` pieces. -/
def lex : List Char → List Piece
  | [] => []
  | c :: cs =>
    if c = '<' then
      match h : parseTagAt cs with
      | some r => .tag r.1 r.2.1 :: lex r.2.2
      | none => .chr '<' :: lex cs
    else .chr c :: lex cs
termination_by cs => cs.length
decreasing_by
  · obtain ⟨isCl, nm, after⟩ := r
    have := parseTagAt_length h
    simp only [List.length_cons]
    omega
  · simp
  · simp

/-! ## The four passes of `_strip_html_tags` -/

/-- The marker `'[%d]' % index` written in place of a whitelisted tag. -/
def markerChars (k : Nat) : List Char := '[' :: natDigits k ++ [']']

/-- `_tag_sub_handler` applied along the scan (sanitize.py lines 296-298 and
320-341): whitelisted tags (after lower-casing) are replaced by numeric
markers and recorded as bare `<name>` / `</name>` strings; all other tag
matches are deleted. `k` is the index of the next record. -/
def scanPieces (wl : List String) : List Piece → Nat → List Char × List String
  | [], _ => ([], [])
  | .chr c :: ps, k =>
    let r := scanPieces wl ps k
    (c :: r.1, r.2)
  | .tag isCl nm :: ps, k =>
    let lname := lowerStr nm
    if wl.contains lname then
      let r := scanPieces wl ps (k + 1)
      (markerChars k ++ r.1, ((if isCl then "</" else "<") ++ lname ++ ">") :: r.2)
    else scanPieces wl ps k

/-- Modelled from the spec: one character of the escaping backend's
`normalize_html_helper` (not among this repository's sources), the generic
entity-encoding pass of §4.3 step 3: the special characters `<`, `>`, `"`,
`'` become entities; other characters (including `&`) are left alone. -/
def normalizeChar (c : Char) : List Char :=
  if c = '<' then "&lt;".toList
  else if c = '>' then "&gt;".toList
  else if c = '"' then "&quot;".toList
  else if c = '\'' then "&#39;".toList
  else [c]

/-- Modelled from the spec: the entity-encoding pass over a character list. -/
def normalizeChars : List Char → List Char
  | [] => []
  | c :: cs => normalizeChar c ++ normalizeChars cs

/-- Modelled from the spec: `generated_sanitize.normalize_html_helper`. -/
def normalize_html_helper (s : String) : String := String.mk (normalizeChars s.toList)

/-- Pass 1 of `_strip_html_tags`: `value.replace('[', '&#91;')`. -/
def bracketEscape : List Char → List Char
  | [] => []
  | c :: cs => (if c = '[' then "&#91;".toList else [c]) ++ bracketEscape cs

/-- `_LT_REGEX.sub('&lt;', ...)` of the empty-whitelist branch: replace
every remaining `<` with `&lt;` (per the comment at sanitize.py 283-285). -/
def ltSub : List Char → List Char
  | [] => []
  | c :: cs => (if c = '<' then "&lt;".toList else [c]) ++ ltSub cs

/-- `_HTML_TAG_REGEX.sub('', value)` of the empty-whitelist branch: delete
every tag match, keep the other characters. -/
def dropTagPieces : List Piece → List Char
  | [] => []
  | .chr c :: ps => c :: dropTagPieces ps
  | .tag _ _ :: ps => dropTagPieces ps

/-! ## `_balance_tags` -/

/-- The canonical HTML5 void-element set of `_HTML5_VOID_ELEMENTS_RE`
(sanitize.py lines 55-57). -/
def voidElements : List String :=
  ["area", "base", "br", "col", "command", "embed", "hr", "img", "input",
   "keygen", "link", "meta", "param", "source", "track", "wbr"]

/-- A regex word character (`\w`), for the `\b` boundary of the void regex. -/
def isWordChar (c : Char) : Bool := c.isAlpha || c.isDigit || c = '_'

/-- `_HTML5_VOID_ELEMENTS_RE.match(tag)`: the tag string starts with
`<name` for a void `name`, followed by a word boundary. -/
def isVoidOpen (t : String) : Bool :=
  voidElements.any fun v =>
    (("<" ++ v).toList.isPrefixOf t.toList) &&
      (match t.toList.drop (v.length + 1) with
       | [] => true
       | c :: _ => !isWordChar c)

/-- `tag[1] == '/'`: the record is a close tag. -/
def isCloseTag (t : String) : Bool := decide (t.toList.get? 1 = some '/')

/-- `'</' + tag[1:]`: the close form pushed for an open record. -/
def closeFormOf (t : String) : String := "</" ++ String.mk (t.toList.drop 1)

/-- The `while index >= 0 and open_tags[index] != tag` search plus the
slices `open_tags[index:]` / `del open_tags[index:]`: find the topmost stack
entry equal to `t`; return the entries from the top down to and including
it, and the remaining stack below. Stack head = most recently opened. -/
def popThrough (t : String) : List String → Option (List String × List String)
  | [] => none
  | s :: rest =>
    if s = t then some ([s], rest)
    else
      match popThrough t rest with
      | some pr => some (s :: pr.1, pr.2)
      | none => none

/-- The record loop of `_balance_tags` (sanitize.py lines 357-371), with the
open-tag stack head-first (Python keeps the top at the end of the list).
Returns the rewritten records and the final stack. -/
def balanceGo : List String → List String → List String × List String
  | stack, [] => ([], stack)
  | stack, t :: rest =>
    if isCloseTag t then
      match popThrough t stack with
      | some pr =>
        let r := balanceGo pr.2 rest
        (String.join pr.1 :: r.1, r.2)
      | none =>
        let r := balanceGo stack rest
        ("" :: r.1, r.2)
    else if isVoidOpen t then
      let r := balanceGo stack rest
      (t :: r.1, r.2)
    else
      let r := balanceGo (closeFormOf t :: stack) rest
      (t :: r.1, r.2)

/-- `_balance_tags`: rewrite the records in place and return the trailing
closers `''.join(reversed(open_tags))` for the still-open tags. -/
def balance_tags (tags : List String) : List String × String :=
  let r := balanceGo [] tags
  (r.1, String.join r.2)

/-! ## Marker reinsertion -/

/-- `_REPLACEMENT_TAG_RE.sub(lambda match: tags[int(match.group(1))], html)`:
replace every `[digits]` marker with the record at that index. (In the
source an out-of-range index would be a run-time error; within
`_strip_html_tags` every marker index is in range, so the `getD` default is
never reached there.) -/
def reinsertGo (tags : List String) : List Char → List Char
  | [] => []
  | c :: cs =>
    if c = '[' then
      match h : cs.dropWhile Char.isDigit with
      | ']' :: rest =>
        if cs.takeWhile Char.isDigit = [] then '[' :: reinsertGo tags cs
        else (tags.getD (digitsToNat (cs.takeWhile Char.isDigit)) "").toList ++
          reinsertGo tags rest
      | _ => '[' :: reinsertGo tags cs
    else c :: reinsertGo tags cs
termination_by cs => cs.length
decreasing_by
  · simp
  · have h1 : (']' :: rest).length ≤ cs.length := h ▸ length_dropWhile_le Char.isDigit cs
    simp only [List.length_cons] at h1 ⊢
    omega
  · simp
  · simp

/-! ## `_strip_html_tags` -/

/-- `_strip_html_tags(value, tag_whitelist)` (sanitize.py lines 270-317).
With a falsy whitelist: delete every tag match, then replace remaining `<`
with `&lt;`. Otherwise: escape `[`, scan and extract whitelisted tags as
markers, entity-encode the remainder, balance the records, reinsert, and
append the trailing closers. -/
def strip_html_tags (value : String) (tag_whitelist : List String) : String :=
  if tag_whitelist.isEmpty then
    String.mk (ltSub (dropTagPieces (lex value.toList)))
  else
    let html1 := bracketEscape value.toList
    let scanned := scanPieces tag_whitelist (lex html1) 0
    let html2 := normalizeChars scanned.1
    let bal := balance_tags scanned.2
    String.mk (reinsertGo bal.1 html2) ++ bal.2

/-! ## Escaping-backend primitives used by the dispatch layer -/

/-- Modelled from the spec: one character of the escaping backend's
`escape_html_helper` (out-of-scope collaborator, §1): like the normalizer
but also encoding `&`. -/
def escapeHtmlChar (c : Char) : List Char :=
  if c = '&' then "&amp;".toList else normalizeChar c

/-- Modelled from the spec: `escape_html_helper` over a character list. -/
def escapeHtmlChars : List Char → List Char
  | [] => []
  | c :: cs => escapeHtmlChar c ++ escapeHtmlChars cs

/-- Modelled from the spec: `generated_sanitize.escape_html_helper`. -/
def escape_html_helper (s : String) : String := String.mk (escapeHtmlChars s.toList)

/-- Modelled from the spec: the no-space normalizer additionally encodes
the space character. -/
def normalizeNospaceChars : List Char → List Char
  | [] => []
  | c :: cs => (if c = ' ' then "&#32;".toList else normalizeChar c) ++ normalizeNospaceChars cs

/-- Modelled from the spec: `generated_sanitize.normalize_html_nospace_helper`. -/
def normalize_html_nospace_helper (s : String) : String :=
  String.mk (normalizeNospaceChars s.toList)

/-- Modelled from the spec: the no-space escaper additionally encodes the
space character. -/
def escapeNospaceChars : List Char → List Char
  | [] => []
  | c :: cs => (if c = ' ' then "&#32;".toList else escapeHtmlChar c) ++ escapeNospaceChars cs

/-- Modelled from the spec: `generated_sanitize.escape_html_nospace_helper`. -/
def escape_html_nospace_helper (s : String) : String :=
  String.mk (escapeNospaceChars s.toList)

/-- Modelled from the spec: one character of the escaping backend's JS
string escaper (out-of-scope collaborator, §1). -/
def escapeJsChar (c : Char) : List Char :=
  if c = '\\' then ['\\', '\\']
  else if c = '\'' then "\\x27".toList
  else if c = '"' then "\\x22".toList
  else if c = '<' then "\\x3c".toList
  else if c = '>' then "\\x3e".toList
  else [c]

/-- Modelled from the spec: `escape_js_string_helper` over a char list. -/
def escapeJsChars : List Char → List Char
  | [] => []
  | c :: cs => escapeJsChar c ++ escapeJsChars cs

/-- Modelled from the spec: `generated_sanitize.escape_js_string_helper`. -/
def escape_js_string_helper (s : String) : String := String.mk (escapeJsChars s.toList)

/-- Modelled from the spec: `generated_sanitize.filter_html_attributes_helper`
is an out-of-scope escaping-backend primitive (§1) no claim depends on;
modelled as the identity. -/
def filter_html_attributes_helper (s : String) : String := s

/-! ## Dispatch layer -/

/-- `value.content`: attribute access on a sanitized value (only reached on
branches guarded by `is_content_kind`, where the value is sanitized). -/
def sanContent : SoyValue → String
  | .sanV v => v.content
  | _ => ""

/-- `escape_html_attribute` (sanitize.py lines 116-121). -/
def escape_html_attribute (value : SoyValue) : String :=
  if is_content_kind value .HTML then
    normalize_html_helper (strip_html_tags (sanContent value) [])
  else
    escape_html_helper (pyStr value)

/-- `escape_html_attribute_nospace` (sanitize.py lines 124-129). -/
def escape_html_attribute_nospace (value : SoyValue) : String :=
  if is_content_kind value .HTML then
    normalize_html_nospace_helper (strip_html_tags (sanContent value) [])
  else
    escape_html_nospace_helper (pyStr value)

/-- `escape_html_rcdata` (sanitize.py lines 132-136). -/
def escape_html_rcdata (value : SoyValue) : String :=
  if is_content_kind value .HTML then
    normalize_html_helper (sanContent value)
  else
    escape_html_helper (pyStr value)

/-- `filter_no_auto_escape` (sanitize.py lines 213-217): TEXT-kind values
are replaced by the innocuous marker; everything else passes unchanged. -/
def filter_no_auto_escape (value : SoyValue) : SoyValue :=
  if is_content_kind value .TEXT then .strV innocuousOutput else value

/-- `escape_js_value` (sanitize.py lines 150-166). -/
def escape_js_value (value : SoyValue) : String :=
  if value = .nullV then " null "
  else if is_content_kind value .JS then sanContent value
  else if isNumeric value then " " ++ pyStr value ++ " "
  else "'" ++ escape_js_string_helper (pyStr value) ++ "'"

/-! ## `filter_html_attributes` and `_AMBIGUOUS_ATTR_END_RE` -/

/-- Python's `\s` character class (`re.UNICODE` semantics, since the pattern
is a unicode literal). -/
def pyIsSpace (c : Char) : Bool :=
  c = ' ' || c = '\t' || c = '\n' || c = '\x0b' || c = '\x0c' || c = '\r' ||
  c.toNat = 0x1c || c.toNat = 0x1d || c.toNat = 0x1e || c.toNat = 0x1f ||
  c.toNat = 0x85 || c.toNat = 0xa0 || c.toNat = 0x1680 ||
  (0x2000 <= c.toNat && c.toNat <= 0x200a) ||
  c.toNat = 0x2028 || c.toNat = 0x2029 || c.toNat = 0x202f ||
  c.toNat = 0x205f || c.toNat = 0x3000

/-- The character class `[^"'\s]` of `_AMBIGUOUS_ATTR_END_RE`. -/
def ambiguousEndChar (c : Char) : Bool := !(c = '"' || c = '\'' || pyIsSpace c)

/-- `_AMBIGUOUS_ATTR_END_RE.sub(r'\1 ', content)` with the pattern
`([^"'\s])$`. Python's `$` (without `re.MULTILINE`) matches at the end of
the string or just before one newline at the end, so a match can sit either
at the very last character or just before a single trailing `\n`. -/
def ambiguousAttrEndSub (s : String) : String :=
  match s.toList.reverse with
  | [] => s
  | c :: rest =>
    if c = '\n' then
      match rest with
      | [] => s
      | c2 :: rest2 =>
        if ambiguousEndChar c2 then
          String.mk ((c2 :: rest2).reverse ++ [' ', '\n'])
        else s
    else if ambiguousEndChar c then s ++ " " else s

/-- `filter_html_attributes` (sanitize.py lines 183-193). -/
def filter_html_attributes (value : SoyValue) : String :=
  if is_content_kind value .ATTRIBUTES then
    ambiguousAttrEndSub (sanContent value)
  else
    filter_html_attributes_helper (pyStr value)

/-- The claim's reading of the RCDATA dispatch, following the spec's words
(§4.2 item 3): strip tags from HTML-kind content before handing the
remainder to the normalizer. Stated for comparison with the source's
`escape_html_rcdata`. -/
def escapeHtmlRcdataClaim (value : SoyValue) : String :=
  if is_content_kind value .HTML then
    normalize_html_helper (strip_html_tags (sanContent value) [])
  else
    escape_html_helper (pyStr value)

/-! ## Output checkers used to state the stripping claims

These decidable checkers express, over the output string, the properties
the claims assert: where `<` may occur, which characters must be
entity-encoded, and the sequence of whitelisted tag occurrences. -/

/-- A well-formed tag name: a letter followed by letters/digits. -/
def goodNameB (n : String) : Bool :=
  match n.toList with
  | [] => false
  | c :: cs => isNameStart c && (c :: cs).all isNameChar

/-- At a position right after a `<`, find a whitelisted bare-tag completion
`name>` or `/name>`; returns the direction, the name, and the remaining
characters after the tag. -/
def findTagCompletion (wl : List String) (cs : List Char) :
    Option (Bool × String × List Char) :=
  match wl with
  | [] => none
  | n :: rest =>
    if (n.toList ++ ['>']).isPrefixOf cs then some (false, n, cs.drop (n.length + 1))
    else if ('/' :: n.toList ++ ['>']).isPrefixOf cs then
      some (true, n, cs.drop (n.length + 2))
    else findTagCompletion rest cs

theorem findTagCompletion_length {wl : List String} {cs rest : List Char}
    {b : Bool} {n : String} (h : findTagCompletion wl cs = some (b, n, rest)) :
    rest.length ≤ cs.length := by
  induction wl with
  | nil => simp [findTagCompletion] at h
  | cons m wl ih =>
    unfold findTagCompletion at h
    split at h
    · simp only [Option.some.injEq, Prod.mk.injEq] at h
      obtain ⟨-, -, h3⟩ := h
      subst h3
      simp
    · split at h
      · simp only [Option.some.injEq, Prod.mk.injEq] at h
        obtain ⟨-, -, h3⟩ := h
        subst h3
        simp
      · exact ih h


/-- The sequence of whitelisted bare-tag occurrences in a character list:
every `<` that begins a whitelisted `<name>` / `</name>` contributes a
token `(isClose, name)`; other characters are skipped. -/
def tokenize (wl : List String) : List Char → List (Bool × String)
  | [] => []
  | c :: cs =>
    if c = '<' then
      match h : findTagCompletion wl cs with
      | some r => (r.1, r.2.1) :: tokenize wl r.2.2
      | none => tokenize wl cs
    else tokenize wl cs
termination_by cs => cs.length
decreasing_by
  · obtain ⟨b, n, rest⟩ := r
    have := findTagCompletion_length h
    simp only [List.length_cons]
    omega
  · simp
  · simp

/-- Checks that every `<` in the list begins a whitelisted bare tag
`<name>` or `</name>` with `name` in the whitelist. -/
def ltOk (wl : List String) : List Char → Bool
  | [] => true
  | c :: cs =>
    if c = '<' then
      match h : findTagCompletion wl cs with
      | some r => ltOk wl r.2.2
      | none => false
    else ltOk wl cs
termination_by cs => cs.length
decreasing_by
  · obtain ⟨b, n, rest⟩ := r
    have := findTagCompletion_length h
    simp only [List.length_cons]
    omega
  · simp

/-- Checks additionally that, outside whitelisted bare tags, none of the
special characters `>`, `"`, `'` occurs in raw form (`<` is already covered
by the tag case). -/
def encOk (wl : List String) : List Char → Bool
  | [] => true
  | c :: cs =>
    if c = '<' then
      match h : findTagCompletion wl cs with
      | some r => encOk wl r.2.2
      | none => false
    else if c = '>' || c = '"' || c = '\'' then false
    else encOk wl cs
termination_by cs => cs.length
decreasing_by
  · obtain ⟨b, n, rest⟩ := r
    have := findTagCompletion_length h
    simp only [List.length_cons]
    omega
  · simp

/-- The stack machine for well-nestedness of a token sequence: a non-void
open pushes its name, a void open is a no-op, a close must match the top of
the stack. `some stack` is the resulting stack; `none` means an improperly
nested close was hit. -/
def runToks : List String → List (Bool × String) → Option (List String)
  | st, [] => some st
  | st, (false, n) :: ts =>
    if n ∈ voidElements then runToks st ts else runToks (n :: st) ts
  | st, (true, n) :: ts =>
    match st with
    | [] => none
    | m :: st' => if m = n then runToks st' ts else none

/-! ## Token-level view of records and balancing

Reference functions used to reason about the pipeline: a record string of
the scan is a bare tag determined by a token `(isClose, name)`, and the
balancing loop is mirrored at the level of names. -/

/-- The bare open tag `<n>`. -/
def openTagStr (n : String) : String := "<" ++ n ++ ">"

/-- The bare close tag `</n>`. -/
def closeTagStr (n : String) : String := "</" ++ n ++ ">"

/-- The record string of a token. -/
def recOfTok : Bool × String → String
  | (false, n) => openTagStr n
  | (true, n) => closeTagStr n

/-- The whitelisted-tag tokens contributed by the scanned pieces, in order
of appearance; names are lower-cased as in `_tag_sub_handler`. -/
def toksOf (wl : List String) (ps : List Piece) : List (Bool × String) :=
  ps.filterMap fun p =>
    match p with
    | .tag isCl nm =>
      if wl.contains (lowerStr nm) then some (isCl, lowerStr nm) else none
    | .chr _ => none

/-- The balancing loop at the level of names: the stack is the list of
still-open names (head = most recent); each token is rewritten into the
list of tokens it contributes to the output. A close token pops through the
stack to the first occurrence of its name, emitting a close token for every
popped name; an orphan close emits nothing. -/
def balanceToks : List String → List (Bool × String) →
    List (List (Bool × String)) × List String
  | ns, [] => ([], ns)
  | ns, (false, n) :: ts =>
    let ns' := if n ∈ voidElements then ns else n :: ns
    let r := balanceToks ns' ts
    ([(false, n)] :: r.1, r.2)
  | ns, (true, n) :: ts =>
    if n ∈ ns then
      let r := balanceToks ((ns.dropWhile (fun m => m != n)).tail) ts
      (((ns.takeWhile (fun m => m != n) ++ [n]).map (fun m => (true, m))) :: r.1, r.2)
    else
      let r := balanceToks ns ts
      ([] :: r.1, r.2)

/-- Reassembly of the output text from the scanned pieces and the balanced
record strings, consumed in order: plain characters are entity-encoded,
whitelisted tags are replaced by the next record string, other tags are
dropped. -/
def assembleL (wl : List String) : List Piece → List String → List Char
  | [], _ => []
  | .chr c :: ps, ts => normalizeChar c ++ assembleL wl ps ts
  | .tag _ nm :: ps, ts =>
    if wl.contains (lowerStr nm) then
      (ts.headD "").toList ++ assembleL wl ps ts.tail
    else assembleL wl ps ts

/-- A character of the output that is not part of a reinserted tag: never a
tag delimiter, a special character, or a marker bracket. -/
def safeChar (c : Char) : Bool :=
  !(c = '<' || c = '>' || c = '"' || c = '\'' || c = '[')

/-- A record string produced by balancing: a concatenation of bare
whitelisted tags (possibly empty). -/
def IsChunk (wl : List String) (s : String) : Prop :=
  ∃ ts : List (Bool × String), (∀ tk ∈ ts, tk.2 ∈ wl) ∧
    s = String.join (ts.map recOfTok)

/-- The side condition on a token of the stripped output: its name is a
whitelisted, well-formed, already-lower-cased tag name. -/
def goodTok (wl : List String) (tk : Bool × String) : Prop :=
  tk.2 ∈ wl ∧ goodNameB tk.2 = true ∧ lowerStr tk.2 = tk.2

/-- The shape of a stripped output string: an interleaving of safe
characters and whitelisted bare tags, together with its token sequence. -/
inductive FixedDoc (wl : List String) : List Char → List (Bool × String) → Prop
  | nil : FixedDoc wl [] []
  | chr (c : Char) (hc : safeChar c = true) {cs ts} (h : FixedDoc wl cs ts) :
      FixedDoc wl (c :: cs) ts
  | tok (tk : Bool × String) (htk : goodTok wl tk) {cs ts} (h : FixedDoc wl cs ts) :
      FixedDoc wl ((recOfTok tk).toList ++ cs) (tk :: ts)

/-- Number of occurrences of a token in a token sequence. -/
def countTok : (Bool × String) → List (Bool × String) → Nat
  | _, [] => 0
  | tk, x :: ts => (if x = tk then 1 else 0) + countTok tk ts

/-- Number of occurrences of a name on a stack. -/
def countName : String → List String → Nat
  | _, [] => 0
  | n, m :: ms => (if m = n then 1 else 0) + countName n ms

/-- The documented idempotence precondition: no literal `[` immediately
followed by a digit (the scan reuses `[i]` as its marker syntax). -/
def noBrDigit : List Char → Bool
  | [] => true
  | '[' :: c :: cs => !c.isDigit && noBrDigit (c :: cs)
  | _ :: cs => noBrDigit cs

/-! ## General string lemmas -/

theorem toList_append (s t : String) : (s ++ t).toList = s.toList ++ t.toList :=
  String.data_append s t

theorem toList_singleton (c : Char) : (String.singleton c).toList = [c] := rfl

/-! ## Behaviour of the ambiguous-attribute-end substitution -/

theorem amb_end_nonnl {s : String} {c : Char} (hc : c ≠ '\n')
    (ha : ambiguousEndChar c = true) :
    ambiguousAttrEndSub (s ++ String.singleton c) = s ++ String.singleton c ++ " " := by
  unfold ambiguousAttrEndSub
  have hrev : (s ++ String.singleton c).toList.reverse = c :: s.toList.reverse := by
    simp [toList_append, toList_singleton]
  rw [hrev]
  simp [hc, ha]

theorem amb_end_nonnl_neg {s : String} {c : Char} (hc : c ≠ '\n')
    (ha : ambiguousEndChar c = false) :
    ambiguousAttrEndSub (s ++ String.singleton c) = s ++ String.singleton c := by
  unfold ambiguousAttrEndSub
  have hrev : (s ++ String.singleton c).toList.reverse = c :: s.toList.reverse := by
    simp [toList_append, toList_singleton]
  rw [hrev]
  simp [hc, ha]

theorem amb_end_nl {s : String} {c : Char} (ha : ambiguousEndChar c = true) :
    ambiguousAttrEndSub (s ++ String.singleton c ++ "\n") =
      s ++ String.singleton c ++ " \n" := by
  unfold ambiguousAttrEndSub
  have hrev : (s ++ String.singleton c ++ "\n").toList.reverse =
      '\n' :: c :: s.toList.reverse := by
    simp [toList_append, toList_singleton]
  rw [hrev]
  simp only [if_pos rfl, ha, if_true]
  apply String.ext
  simp [toList_append, toList_singleton]

theorem amb_end_nl_neg {s : String} {c : Char} (ha : ambiguousEndChar c = false) :
    ambiguousAttrEndSub (s ++ String.singleton c ++ "\n") =
      s ++ String.singleton c ++ "\n" := by
  unfold ambiguousAttrEndSub
  have hrev : (s ++ String.singleton c ++ "\n").toList.reverse =
      '\n' :: c :: s.toList.reverse := by
    simp [toList_append, toList_singleton]
  rw [hrev]
  simp [ha]

theorem filter_attr_on_attributes (content : String) (d : Option Int) :
    filter_html_attributes (.sanV ⟨.ATTRIBUTES, content, d⟩) =
      ambiguousAttrEndSub content := by
  simp [filter_html_attributes, is_content_kind, sanContent]

/-! ## Auxiliary lemmas for the capability model -/

theorem checkApproval_eq_false {a : Option Approval}
    (h : ∀ j, a = some ⟨some j⟩ → j.length < 20) : checkApproval a = false := by
  match a with
  | none => rfl
  | some ⟨none⟩ => rfl
  | some ⟨some j⟩ =>
    have hj := h j rfl
    have h20 : decide (20 ≤ j.length) = false := by
      simp only [decide_eq_false_iff_not]
      omega
    show (decide (j ≠ "") && decide (20 ≤ j.length)) = false
    rw [h20, Bool.and_false]

theorem checkApproval_eq_true {j : String} (h : 20 ≤ j.length) :
    checkApproval (some ⟨some j⟩) = true := by
  have hne : j ≠ "" := by
    intro he
    rw [he] at h
    simp [String.length] at h
  show (decide (j ≠ "") && decide (20 ≤ j.length)) = true
  simp [hne, h]

/-! ## Equation lemmas for the scanning functions -/

theorem lex_nil : lex [] = [] := by simp [lex]

theorem lex_cons_tag {cs : List Char} {r : Bool × String × List Char}
    (h : parseTagAt cs = some r) :
    lex ('<' :: cs) = .tag r.1 r.2.1 :: lex r.2.2 := by
  rw [lex]
  split
  · split
    · rename_i r' heq
      rw [h] at heq
      cases heq
      rfl
    · rename_i heq
      rw [h] at heq
      cases heq
  · rename_i hf
    exact absurd rfl hf

theorem lex_cons_nomatch {cs : List Char} (h : parseTagAt cs = none) :
    lex ('<' :: cs) = .chr '<' :: lex cs := by
  rw [lex]
  split
  · split
    · rename_i r' heq
      rw [h] at heq
      cases heq
    · rfl
  · rename_i hf
    exact absurd rfl hf

theorem lex_cons_chr {c : Char} (hc : c ≠ '<') (cs : List Char) :
    lex (c :: cs) = .chr c :: lex cs := by
  rw [lex]
  split
  · rename_i ht
    exact absurd ht hc
  · rfl

theorem reinsert_nil (tags : List String) : reinsertGo tags [] = [] := by
  simp [reinsertGo]

theorem reinsert_cons_chr {c : Char} (hc : c ≠ '[') (tags : List String)
    (cs : List Char) : reinsertGo tags (c :: cs) = c :: reinsertGo tags cs := by
  rw [reinsertGo]
  split
  · rename_i ht
    exact absurd ht hc
  · rfl

/-! ## Decimal markers round-trip -/

theorem digitChar_isDigit {d : Nat} (h : d < 10) : (digitChar d).isDigit = true := by
  interval_cases d <;> decide

theorem digitVal_digitChar {d : Nat} (h : d < 10) : digitVal (digitChar d) = d := by
  interval_cases d <;> decide

theorem natDigits_ne_nil (k : Nat) : natDigits k ≠ [] := by
  rw [natDigits]
  split
  · simp
  · simp

theorem natDigits_all_digit (k : Nat) : ∀ c ∈ natDigits k, c.isDigit = true := by
  induction k using Nat.strong_induction_on with
  | _ k ih =>
    rw [natDigits]
    split
    · rename_i h
      intro c hc
      simp only [List.mem_singleton] at hc
      subst hc
      exact digitChar_isDigit h
    · rename_i h
      intro c hc
      simp only [List.mem_append, List.mem_singleton] at hc
      rcases hc with hc | hc
      · exact ih (k / 10) (Nat.div_lt_self (by omega) (by omega)) c hc
      · subst hc
        exact digitChar_isDigit (Nat.mod_lt _ (by omega))

theorem digitsToNat_append_digit (ds : List Char) (c : Char) :
    digitsToNat (ds ++ [c]) = 10 * digitsToNat ds + digitVal c := by
  simp [digitsToNat, List.foldl_append]

theorem digitsToNat_natDigits (k : Nat) : digitsToNat (natDigits k) = k := by
  induction k using Nat.strong_induction_on with
  | _ k ih =>
    rw [natDigits]
    split
    · rename_i h
      show digitsToNat [digitChar k] = k
      simp [digitsToNat, digitVal_digitChar h]
    · rename_i h
      rw [digitsToNat_append_digit,
        ih (k / 10) (Nat.div_lt_self (by omega) (by omega)),
        digitVal_digitChar (Nat.mod_lt _ (by omega))]
      omega

/-! ## takeWhile / dropWhile over a recognized block -/

theorem takeWhile_all_append {p : Char → Bool} {a : List Char}
    (h : ∀ c ∈ a, p c = true) {c : Char} (hc : p c = false) (b : List Char) :
    (a ++ c :: b).takeWhile p = a := by
  induction a with
  | nil => simp [List.takeWhile_cons, hc]
  | cons x a ih =>
    have hx := h x (by simp)
    simp only [List.cons_append, List.takeWhile_cons, hx, if_true]
    rw [ih (fun c' hc' => h c' (by simp [hc']))]

theorem dropWhile_all_append {p : Char → Bool} {a : List Char}
    (h : ∀ c ∈ a, p c = true) {c : Char} (hc : p c = false) (b : List Char) :
    (a ++ c :: b).dropWhile p = c :: b := by
  induction a with
  | nil => simp [List.dropWhile_cons, hc]
  | cons x a ih =>
    have hx := h x (by simp)
    simp only [List.cons_append, List.dropWhile_cons, hx, if_true]
    exact ih (fun c' hc' => h c' (by simp [hc']))

/-! ## Character facts about the entity encoder -/

theorem normalizeChar_safe (c : Char) :
    ∀ x ∈ normalizeChar c, x ≠ '<' ∧ x ≠ '>' ∧ x ≠ '"' ∧ x ≠ '\'' := by
  unfold normalizeChar
  split
  · decide
  · split
    · decide
    · split
      · decide
      · split
        · decide
        · rename_i h1 h2 h3 h4
          intro x hx
          simp only [List.mem_singleton] at hx
          subst hx
          exact ⟨h1, h2, h3, h4⟩

theorem normalizeChar_eq_self {c : Char}
    (h : c ≠ '<' ∧ c ≠ '>' ∧ c ≠ '"' ∧ c ≠ '\'') : normalizeChar c = [c] := by
  simp [normalizeChar, h.1, h.2.1, h.2.2.1, h.2.2.2]

theorem normalizeChar_no_br {c : Char} (hc : c ≠ '[') :
    ∀ x ∈ normalizeChar c, x ≠ '[' := by
  unfold normalizeChar
  split
  · decide
  · split
    · decide
    · split
      · decide
      · split
        · decide
        · intro x hx
          simp only [List.mem_singleton] at hx
          subst hx
          exact hc

theorem normalizeChars_append (a b : List Char) :
    normalizeChars (a ++ b) = normalizeChars a ++ normalizeChars b := by
  induction a with
  | nil => rfl
  | cons c a ih => simp [normalizeChars, ih]

/-! ## Reinsertion over structured text -/

theorem reinsert_append_nobr {a : List Char} (h : ∀ x ∈ a, x ≠ '[')
    (tags : List String) (b : List Char) :
    reinsertGo tags (a ++ b) = a ++ reinsertGo tags b := by
  induction a with
  | nil => rfl
  | cons c a ih =>
    rw [List.cons_append, reinsert_cons_chr (h c (by simp)) tags,
      ih (fun x hx => h x (by simp [hx]))]
    rfl

theorem reinsert_marker (tags : List String) (k : Nat) (b : List Char) :
    reinsertGo tags ('[' :: (natDigits k ++ ']' :: b)) =
      (tags.getD k "").toList ++ reinsertGo tags b := by
  have hdw : (natDigits k ++ ']' :: b).dropWhile Char.isDigit = ']' :: b :=
    dropWhile_all_append (natDigits_all_digit k) (by decide) b
  have htw : (natDigits k ++ ']' :: b).takeWhile Char.isDigit = natDigits k :=
    takeWhile_all_append (natDigits_all_digit k) (by decide) b
  rw [reinsertGo]
  split
  · split
    · rename_i rest heq
      rw [hdw] at heq
      cases heq
      rw [htw, if_neg (natDigits_ne_nil k), digitsToNat_natDigits]
    · rename_i hno
      exact absurd hdw (hno b)
  · rename_i hf
    exact absurd rfl hf

/-! ## The scan: records and marker layout -/

theorem scanPieces_snd (wl : List String) (ps : List Piece) (k : Nat) :
    (scanPieces wl ps k).2 = (toksOf wl ps).map recOfTok := by
  induction ps generalizing k with
  | nil => rfl
  | cons p ps ih =>
    cases p with
    | chr c => simpa [scanPieces, toksOf] using ih k
    | tag isCl nm =>
      by_cases hw : lowerStr nm ∈ wl
      · cases isCl <;>
          simp [scanPieces, toksOf, hw, recOfTok, openTagStr, closeTagStr, ih (k + 1)]
      · simpa [scanPieces, toksOf, hw] using ih k

theorem natDigits_mem_image (k : Nat) :
    ∀ c ∈ natDigits k, ∃ d, d < 10 ∧ c = digitChar d := by
  induction k using Nat.strong_induction_on with
  | _ k ih =>
    rw [natDigits]
    split
    · rename_i h
      intro c hc
      simp only [List.mem_singleton] at hc
      exact ⟨k, h, hc⟩
    · rename_i h
      intro c hc
      simp only [List.mem_append, List.mem_singleton] at hc
      rcases hc with hc | hc
      · exact ih (k / 10) (Nat.div_lt_self (by omega) (by omega)) c hc
      · exact ⟨k % 10, Nat.mod_lt _ (by omega), hc⟩

theorem natDigits_safe (k : Nat) :
    ∀ c ∈ natDigits k,
      c ≠ '<' ∧ c ≠ '>' ∧ c ≠ '"' ∧ c ≠ '\'' ∧ c ≠ '[' ∧ c ≠ ']' := by
  intro c hc
  obtain ⟨d, hd, hcd⟩ := natDigits_mem_image k c hc
  subst hcd
  interval_cases d <;> decide

theorem normalizeChars_eq_self {a : List Char}
    (h : ∀ c ∈ a, c ≠ '<' ∧ c ≠ '>' ∧ c ≠ '"' ∧ c ≠ '\'') :
    normalizeChars a = a := by
  induction a with
  | nil => rfl
  | cons c a ih =>
    show normalizeChar c ++ normalizeChars a = c :: a
    rw [normalizeChar_eq_self (h c (by simp)),
      ih (fun c' h' => h c' (by simp [h']))]
    rfl

theorem normalizeChars_marker (k : Nat) (b : List Char) :
    normalizeChars (markerChars k ++ b) = markerChars k ++ normalizeChars b := by
  rw [normalizeChars_append]
  congr 1
  apply normalizeChars_eq_self
  intro c hc
  rw [markerChars] at hc
  rcases List.mem_cons.mp hc with hc | hc
  · subst hc; decide
  · rcases List.mem_append.mp hc with hc | hc
    · have hx := natDigits_safe k c hc
      exact ⟨hx.1, hx.2.1, hx.2.2.1, hx.2.2.2.1⟩
    · rw [List.mem_singleton] at hc
      subst hc
      decide

theorem getD_eq_headD_drop (l : List String) (k : Nat) :
    l.getD k "" = (l.drop k).headD "" := by
  induction l generalizing k with
  | nil => simp
  | cons x l ih =>
    cases k with
    | zero => simp
    | succ k => simpa using ih k

/-- Composition of passes 2-4 on the scanned pieces: substituting the
markers of the scan in the entity-encoded text with the record strings is
the same as assembling the pieces directly, consuming the record list in
order. -/
theorem reinsert_normalize_scan (wl : List String) (tags2 : List String) :
    ∀ (ps : List Piece) (k : Nat), (∀ c, Piece.chr c ∈ ps → c ≠ '[') →
    reinsertGo tags2 (normalizeChars (scanPieces wl ps k).1) =
      assembleL wl ps (tags2.drop k) := by
  intro ps
  induction ps with
  | nil =>
    intro k _
    show reinsertGo tags2 (normalizeChars []) = []
    rw [show normalizeChars [] = [] from rfl, reinsert_nil]
  | cons p ps ih =>
    intro k h
    cases p with
    | chr c =>
      have hc : c ≠ '[' := h c (by simp)
      show reinsertGo tags2 (normalizeChars (c :: (scanPieces wl ps k).1)) = _
      rw [show normalizeChars (c :: (scanPieces wl ps k).1) =
        normalizeChar c ++ normalizeChars (scanPieces wl ps k).1 from rfl,
        reinsert_append_nobr (normalizeChar_no_br hc) tags2,
        ih k (fun c' hc' => h c' (by simp [hc']))]
      rfl
    | tag isCl nm =>
      by_cases hw : lowerStr nm ∈ wl
      · have hfst : (scanPieces wl (.tag isCl nm :: ps) k).1 =
            markerChars k ++ (scanPieces wl ps (k + 1)).1 := by
          simp [scanPieces, hw]
        rw [hfst, normalizeChars_marker,
          show markerChars k ++ normalizeChars (scanPieces wl ps (k + 1)).1 =
            '[' :: (natDigits k ++ ']' ::
              normalizeChars (scanPieces wl ps (k + 1)).1) by simp [markerChars],
          reinsert_marker, ih (k + 1) (fun c' hc' => h c' (by simp [hc']))]
        show _ = assembleL wl (.tag isCl nm :: ps) (tags2.drop k)
        simp only [assembleL]
        rw [if_pos (by simpa using hw), getD_eq_headD_drop, List.tail_drop]
      · have hfst : (scanPieces wl (.tag isCl nm :: ps) k).1 =
            (scanPieces wl ps k).1 := by
          simp [scanPieces, hw]
        rw [hfst, ih k (fun c' hc' => h c' (by simp [hc']))]
        show _ = assembleL wl (.tag isCl nm :: ps) (tags2.drop k)
        simp [assembleL, hw]

/-! ## Bracket-escaping and membership through the lexer -/

theorem bracketEscape_no_br (cs : List Char) : ∀ x ∈ bracketEscape cs, x ≠ '[' := by
  induction cs with
  | nil => intro x hx; cases hx
  | cons c cs ih =>
    intro x hx
    rw [show bracketEscape (c :: cs) =
      (if c = '[' then "&#91;".toList else [c]) ++ bracketEscape cs from rfl] at hx
    rcases List.mem_append.mp hx with hx | hx
    · by_cases hc : c = '['
      · rw [if_pos hc] at hx
        have hx' : x ∈ ['&', '#', '9', '1', ';'] := hx
        fin_cases hx' <;> decide
      · rw [if_neg hc, List.mem_singleton] at hx
        subst hx
        exact hc
    · exact ih x hx

theorem mem_of_dropUntilGt {cs r : List Char} (h : dropUntilGt cs = some r) :
    ∀ x ∈ r, x ∈ cs := by
  induction cs generalizing r with
  | nil => simp [dropUntilGt] at h
  | cons c cs ih =>
    by_cases hc : c = '>'
    · simp only [dropUntilGt, hc, if_pos, Option.some.injEq] at h
      subst h
      intro x hx
      simp [hx]
    · simp only [dropUntilGt, hc, if_false] at h
      intro x hx
      simp [ih h x hx]

theorem mem_of_dropWhile {p : Char → Bool} {l : List Char} :
    ∀ x ∈ l.dropWhile p, x ∈ l := by
  induction l with
  | nil => simp
  | cons c l ih =>
    intro x hx
    rw [List.dropWhile_cons] at hx
    split at hx
    · exact List.mem_cons_of_mem c (ih x hx)
    · exact hx

theorem mem_of_parseTagBody {b : Bool} {cs : List Char} {r : Bool × String × List Char}
    (h : parseTagBody b cs = some r) : ∀ x ∈ r.2.2, x ∈ cs := by
  unfold parseTagBody at h
  split at h
  · rename_i nm' rest' hn
    split at h
    · rename_i rr hg
      cases h
      intro x hx
      have h1 := mem_of_dropUntilGt hg x hx
      cases cs with
      | nil => simp [parseName] at hn
      | cons c rest =>
        by_cases hs : isNameStart c
        · simp only [parseName, hs, if_true, Option.some.injEq, Prod.mk.injEq] at hn
          obtain ⟨-, h2⟩ := hn
          subst h2
          exact List.mem_cons_of_mem c (mem_of_dropWhile x h1)
        · simp [parseName, hs] at hn
    · simp at h
  · simp at h

theorem mem_of_parseTagAt {cs : List Char} {r : Bool × String × List Char}
    (h : parseTagAt cs = some r) : ∀ x ∈ r.2.2, x ∈ cs := by
  unfold parseTagAt at h
  split at h
  · intro x hx
    exact List.mem_cons_of_mem _ (mem_of_parseTagBody h x hx)
  · exact mem_of_parseTagAt_aux h
where
  mem_of_parseTagAt_aux {cs : List Char} {r : Bool × String × List Char}
      (h : parseTagBody false cs = some r) : ∀ x ∈ r.2.2, x ∈ cs :=
    mem_of_parseTagBody h

theorem lex_chr_mem : ∀ (cs : List Char) (c : Char), Piece.chr c ∈ lex cs → c ∈ cs := by
  intro cs
  induction cs using lex.induct with
  | case1 =>
    intro c h
    rw [lex_nil] at h
    cases h
  | case2 cs r hr ih =>
    intro c h
    rw [lex_cons_tag hr] at h
    rcases List.mem_cons.mp h with h | h
    · cases h
    · exact List.mem_cons_of_mem _ (mem_of_parseTagAt hr c (ih c h))
  | case3 cs hr ih =>
    intro c h
    rw [lex_cons_nomatch hr] at h
    rcases List.mem_cons.mp h with h | h
    · cases h
      simp
    · simp [ih c h]
  | case4 c' cs hc ih =>
    intro c h
    rw [lex_cons_chr hc] at h
    rcases List.mem_cons.mp h with h | h
    · cases h
      simp
    · simp [ih c h]

/-- The non-empty-whitelist branch of `_strip_html_tags`, decomposed: the
reinserted entity-encoded scan equals the direct assembly of the lexed
pieces with the balanced record strings, followed by the trailing
closers. -/
theorem strip_eq_assembleL (value : String) (wl : List String) (hwl : wl ≠ []) :
    strip_html_tags value wl =
      String.mk (assembleL wl (lex (bracketEscape value.toList))
        ((balance_tags ((toksOf wl (lex (bracketEscape value.toList))).map recOfTok)).1)) ++
      (balance_tags ((toksOf wl (lex (bracketEscape value.toList))).map recOfTok)).2 := by
  have hne : wl.isEmpty = false := by
    cases wl with
    | nil => exact absurd rfl hwl
    | cons x l => rfl
  have hbr : ∀ c, Piece.chr c ∈ lex (bracketEscape value.toList) → c ≠ '[' :=
    fun c hc => bracketEscape_no_br value.toList c (lex_chr_mem _ c hc)
  simp only [strip_html_tags, hne, Bool.false_eq_true, if_false]
  rw [scanPieces_snd]
  congr 1
  congr 1
  have hc := reinsert_normalize_scan wl
    ((balance_tags ((toksOf wl (lex (bracketEscape value.toList))).map recOfTok)).1)
    (lex (bracketEscape value.toList)) 0 hbr
  simpa using hc

/-! ## Equation lemmas for the output checkers -/

theorem tokenize_nil (wl : List String) : tokenize wl [] = [] := by simp [tokenize]

theorem tokenize_cons_found {wl : List String} {cs : List Char}
    {r : Bool × String × List Char} (h : findTagCompletion wl cs = some r) :
    tokenize wl ('<' :: cs) = (r.1, r.2.1) :: tokenize wl r.2.2 := by
  rw [tokenize]
  split
  · split
    · rename_i r' heq
      rw [h] at heq
      cases heq
      rfl
    · rename_i heq
      rw [h] at heq
      cases heq
  · rename_i hf
    exact absurd rfl hf

theorem tokenize_cons_chr {wl : List String} {c : Char} (hc : c ≠ '<')
    (cs : List Char) : tokenize wl (c :: cs) = tokenize wl cs := by
  rw [tokenize]
  split
  · rename_i ht
    exact absurd ht hc
  · rfl

theorem ltOk_nil (wl : List String) : ltOk wl [] = true := by simp [ltOk]

theorem ltOk_cons_found {wl : List String} {cs : List Char}
    {r : Bool × String × List Char} (h : findTagCompletion wl cs = some r) :
    ltOk wl ('<' :: cs) = ltOk wl r.2.2 := by
  rw [ltOk]
  split
  · split
    · rename_i r' heq
      rw [h] at heq
      cases heq
      rfl
    · rename_i heq
      rw [h] at heq
      cases heq
  · rename_i hf
    exact absurd rfl hf

theorem ltOk_cons_chr {wl : List String} {c : Char} (hc : c ≠ '<')
    (cs : List Char) : ltOk wl (c :: cs) = ltOk wl cs := by
  rw [ltOk]
  split
  · rename_i ht
    exact absurd ht hc
  · rfl

theorem encOk_nil (wl : List String) : encOk wl [] = true := by simp [encOk]

theorem encOk_cons_found {wl : List String} {cs : List Char}
    {r : Bool × String × List Char} (h : findTagCompletion wl cs = some r) :
    encOk wl ('<' :: cs) = encOk wl r.2.2 := by
  rw [encOk]
  split
  · split
    · rename_i r' heq
      rw [h] at heq
      cases heq
      rfl
    · rename_i heq
      rw [h] at heq
      cases heq
  · rename_i hf
    exact absurd rfl hf

theorem encOk_cons_chr {wl : List String} {c : Char} (hc : c ≠ '<')
    (hs : ¬(c = '>' ∨ c = '"' ∨ c = '\'')) (cs : List Char) :
    encOk wl (c :: cs) = encOk wl cs := by
  rw [encOk]
  split
  · rename_i ht
    exact absurd ht hc
  · rw [if_neg]
    simp only [Bool.or_eq_true, decide_eq_true_eq]
    intro hcon
    rcases hcon with hcon | hcon
    · rcases hcon with hcon | hcon
      · exact hs (Or.inl hcon)
      · exact hs (Or.inr (Or.inl hcon))
    · exact hs (Or.inr (Or.inr hcon))

/-! ## Well-formed tag names -/

theorem goodNameB_elim {n : String} (h : goodNameB n = true) :
    n.toList ≠ [] ∧ (∀ x ∈ n.toList, isNameChar x = true) ∧
      (∀ c cs, n.toList = c :: cs → isNameStart c = true) := by
  unfold goodNameB at h
  split at h
  · cases h
  · rename_i c cs heq
    rw [Bool.and_eq_true] at h
    refine ⟨by rw [heq]; simp, ?_, ?_⟩
    · intro x hx
      rw [heq] at hx
      exact List.all_eq_true.mp h.2 x hx
    · intro c' cs' heq'
      rw [heq] at heq'
      cases heq'
      exact h.1

theorem nameChar_ne_gt {c : Char} (h : isNameChar c = true) : c ≠ '>' := by
  intro he
  subst he
  exact absurd h (by decide)

theorem nameChar_ne_lt {c : Char} (h : isNameChar c = true) : c ≠ '<' := by
  intro he
  subst he
  exact absurd h (by decide)

theorem nameChar_ne_slash {c : Char} (h : isNameChar c = true) : c ≠ '/' := by
  intro he
  subst he
  exact absurd h (by decide)

theorem nameChar_ne_br {c : Char} (h : isNameChar c = true) : c ≠ '[' := by
  intro he
  subst he
  exact absurd h (by decide)

theorem nameStart_ne_slash {c : Char} (h : isNameStart c = true) : c ≠ '/' := by
  intro he
  subst he
  exact absurd h (by decide)

theorem nameChar_safe {c : Char} (h : isNameChar c = true) : safeChar c = true := by
  unfold safeChar
  have h1 := nameChar_ne_lt h
  have h2 := nameChar_ne_gt h
  have h3 := nameChar_ne_br h
  have h4 : c ≠ '"' := by intro he; subst he; exact absurd h (by decide)
  have h5 : c ≠ '\'' := by intro he; subst he; exact absurd h (by decide)
  simp [h1, h2, h3, h4, h5]

/-- Two tag names followed by `>` can only be prefixes of each other when
they are equal: a name never contains `>`. -/
theorem nameChars_gt_uniq {a b rest : List Char}
    (ha : ∀ c ∈ a, isNameChar c = true) (hb : ∀ c ∈ b, isNameChar c = true)
    (h : (a ++ ['>']) <+: (b ++ '>' :: rest)) : a = b := by
  induction a generalizing b with
  | nil =>
    cases b with
    | nil => rfl
    | cons d b' =>
      rw [List.nil_append] at h
      have hd := (List.cons_prefix_cons.mp h).1
      have hnd := hb d (by simp)
      rw [← hd] at hnd
      exact absurd hnd (by decide)
  | cons c a' ih =>
    cases b with
    | nil =>
      rw [List.nil_append] at h
      have hc := (List.cons_prefix_cons.mp h).1
      have hna := ha c (by simp)
      rw [hc] at hna
      exact absurd hna (by decide)
    | cons d b' =>
      rw [List.cons_append, List.cons_append] at h
      have h1 := List.cons_prefix_cons.mp h
      rw [h1.1,
        ih (fun x hx => ha x (by simp [hx])) (fun x hx => hb x (by simp [hx])) h1.2]

/-! ## Tag-string anatomy -/

theorem string_length_eq (s : String) : s.length = s.toList.length := rfl

theorem toList_inj {s t : String} (h : s.toList = t.toList) : s = t := String.ext h

theorem toList_openTagStr (n : String) :
    (openTagStr n).toList = '<' :: (n.toList ++ ['>']) := by
  show ("<" ++ n ++ ">").toList = _
  rw [toList_append, toList_append]
  rfl

theorem toList_closeTagStr (n : String) :
    (closeTagStr n).toList = '<' :: '/' :: (n.toList ++ ['>']) := by
  show ("</" ++ n ++ ">").toList = _
  rw [toList_append, toList_append]
  rfl

theorem string_join_cons (s : String) (l : List String) :
    String.join (s :: l) = s ++ String.join l := by
  have key : ∀ (l : List String) (a : String),
      List.foldl (· ++ ·) a l = a ++ List.foldl (· ++ ·) "" l := by
    intro l
    induction l with
    | nil => intro a; simp [String.append_nil]
    | cons x l ih =>
      intro a
      show List.foldl (· ++ ·) (a ++ x) l = a ++ List.foldl (· ++ ·) ("" ++ x) l
      rw [ih (a ++ x), ih ("" ++ x), String.nil_append, String.append_assoc]
  show List.foldl (· ++ ·) ("" ++ s) l = s ++ List.foldl (· ++ ·) "" l
  rw [String.nil_append, key l s]

theorem string_join_nil : String.join ([] : List String) = "" := rfl

/-! ## Determinism of whitelisted-tag completion -/

theorem findTagCompletion_open {wl : List String} {n : String} (rest : List Char)
    (hgood : ∀ m ∈ wl, goodNameB m = true) (hn : n ∈ wl) :
    findTagCompletion wl (n.toList ++ '>' :: rest) = some (false, n, rest) := by
  obtain ⟨hne, hall, hhd⟩ := goodNameB_elim (hgood n hn)
  induction wl with
  | nil => cases hn
  | cons m wl ih =>
    obtain ⟨hmne, hmall, hmhd⟩ := goodNameB_elim (hgood m (by simp))
    unfold findTagCompletion
    by_cases hm : m = n
    · subst hm
      rw [if_pos]
      · have hdrop : (m.toList ++ '>' :: rest).drop (m.length + 1) = rest := by
          have h1 : m.toList ++ '>' :: rest = (m.toList ++ ['>']) ++ rest := by simp
          have h2 : m.length + 1 = (m.toList ++ ['>']).length := by
            rw [List.length_append]
            rfl
          rw [h1, h2, List.drop_left]
        rw [hdrop]
      · rw [List.isPrefixOf_iff_prefix]
        have h1 : m.toList ++ '>' :: rest = (m.toList ++ ['>']) ++ rest := by simp
        rw [h1]
        exact List.prefix_append _ _
    · have hq1 : ¬((m.toList ++ ['>']).isPrefixOf (n.toList ++ '>' :: rest) = true) := by
        rw [List.isPrefixOf_iff_prefix]
        intro hpre
        exact hm (toList_inj (nameChars_gt_uniq hmall hall hpre))
      have hq2 : ¬(('/' :: m.toList ++ ['>']).isPrefixOf
          (n.toList ++ '>' :: rest) = true) := by
        rw [List.isPrefixOf_iff_prefix]
        intro hpre
        cases hcs : n.toList with
        | nil => exact hne hcs
        | cons c cs =>
          rw [hcs, List.cons_append] at hpre
          have h1 := (List.cons_prefix_cons.mp hpre).1
          have h2 := hhd c cs hcs
          rw [← h1] at h2
          exact absurd h2 (by decide)
      rw [if_neg hq1, if_neg hq2]
      refine ih (fun x hx => hgood x (by simp [hx])) ?_
      rcases List.mem_cons.mp hn with h | h
      · exact absurd h.symm hm
      · exact h

theorem findTagCompletion_close {wl : List String} {n : String} (rest : List Char)
    (hgood : ∀ m ∈ wl, goodNameB m = true) (hn : n ∈ wl) :
    findTagCompletion wl ('/' :: (n.toList ++ '>' :: rest)) = some (true, n, rest) := by
  obtain ⟨hne, hall, hhd⟩ := goodNameB_elim (hgood n hn)
  induction wl with
  | nil => cases hn
  | cons m wl ih =>
    obtain ⟨hmne, hmall, hmhd⟩ := goodNameB_elim (hgood m (by simp))
    unfold findTagCompletion
    have hq1 : ¬((m.toList ++ ['>']).isPrefixOf
        ('/' :: (n.toList ++ '>' :: rest)) = true) := by
      rw [List.isPrefixOf_iff_prefix]
      intro hpre
      cases hms : m.toList with
      | nil => exact hmne hms
      | cons c cs =>
        rw [hms, List.cons_append] at hpre
        have h1 := (List.cons_prefix_cons.mp hpre).1
        have h2 := hmhd c cs hms
        rw [h1] at h2
        exact absurd h2 (by decide)
    rw [if_neg hq1]
    by_cases hm : m = n
    · subst hm
      rw [if_pos]
      · have hdrop : ('/' :: (m.toList ++ '>' :: rest)).drop (m.length + 2) = rest := by
          rw [show m.length + 2 = (m.length + 1) + 1 by omega, List.drop_succ_cons]
          have h1 : m.toList ++ '>' :: rest = (m.toList ++ ['>']) ++ rest := by simp
          have h2 : m.length + 1 = (m.toList ++ ['>']).length := by
            rw [List.length_append]
            rfl
          rw [h1, h2, List.drop_left]
        rw [hdrop]
      · rw [List.isPrefixOf_iff_prefix, List.cons_append]
        rw [List.cons_prefix_cons]
        refine ⟨rfl, ?_⟩
        have h1 : m.toList ++ '>' :: rest = (m.toList ++ ['>']) ++ rest := by simp
        rw [h1]
        exact List.prefix_append _ _
    · have hq2 : ¬(('/' :: m.toList ++ ['>']).isPrefixOf
          ('/' :: (n.toList ++ '>' :: rest)) = true) := by
        rw [List.isPrefixOf_iff_prefix, List.cons_append, List.cons_prefix_cons]
        intro hpre
        exact hm (toList_inj (nameChars_gt_uniq hmall hall hpre.2))
      rw [if_neg hq2]
      refine ih (fun x hx => hgood x (by simp [hx])) ?_
      rcases List.mem_cons.mp hn with h | h
      · exact absurd h.symm hm
      · exact h

/-! ## The checkers over structured output -/

theorem tokenize_append_no_lt {wl : List String} {a : List Char}
    (h : ∀ x ∈ a, x ≠ '<') (b : List Char) :
    tokenize wl (a ++ b) = tokenize wl b := by
  induction a with
  | nil => rfl
  | cons c a ih =>
    rw [List.cons_append, tokenize_cons_chr (h c (by simp)),
      ih (fun x hx => h x (by simp [hx]))]

theorem tokenize_open_cons {wl : List String} {n : String}
    (hgood : ∀ m ∈ wl, goodNameB m = true) (hn : n ∈ wl) (b : List Char) :
    tokenize wl ((openTagStr n).toList ++ b) = (false, n) :: tokenize wl b := by
  rw [toList_openTagStr, List.cons_append, List.append_assoc,
    show ['>'] ++ b = '>' :: b from rfl,
    tokenize_cons_found (findTagCompletion_open b hgood hn)]

theorem tokenize_close_cons {wl : List String} {n : String}
    (hgood : ∀ m ∈ wl, goodNameB m = true) (hn : n ∈ wl) (b : List Char) :
    tokenize wl ((closeTagStr n).toList ++ b) = (true, n) :: tokenize wl b := by
  rw [toList_closeTagStr, List.cons_append, List.cons_append, List.append_assoc,
    show ['>'] ++ b = '>' :: b from rfl,
    tokenize_cons_found (findTagCompletion_close b hgood hn)]

theorem tokenize_chunk {wl : List String} (hgood : ∀ m ∈ wl, goodNameB m = true)
    {ts : List (Bool × String)} (hts : ∀ tk ∈ ts, tk.2 ∈ wl) (b : List Char) :
    tokenize wl ((String.join (ts.map recOfTok)).toList ++ b) =
      ts ++ tokenize wl b := by
  induction ts with
  | nil =>
    rw [List.map_nil, string_join_nil]
    rfl
  | cons tk ts ih =>
    rw [List.map_cons, string_join_cons, toList_append, List.append_assoc]
    obtain ⟨isCl, n⟩ := tk
    have hn : n ∈ wl := hts (isCl, n) (by simp)
    cases isCl
    · rw [show recOfTok (false, n) = openTagStr n from rfl,
        tokenize_open_cons hgood hn, ih (fun x hx => hts x (by simp [hx]))]
      rfl
    · rw [show recOfTok (true, n) = closeTagStr n from rfl,
        tokenize_close_cons hgood hn, ih (fun x hx => hts x (by simp [hx]))]
      rfl

theorem ltOk_append_no_lt {wl : List String} {a : List Char}
    (h : ∀ x ∈ a, x ≠ '<') (b : List Char) :
    ltOk wl (a ++ b) = ltOk wl b := by
  induction a with
  | nil => rfl
  | cons c a ih =>
    rw [List.cons_append, ltOk_cons_chr (h c (by simp)),
      ih (fun x hx => h x (by simp [hx]))]

theorem ltOk_of_no_lt {wl : List String} {cs : List Char}
    (h : ∀ x ∈ cs, x ≠ '<') : ltOk wl cs = true := by
  induction cs with
  | nil => exact ltOk_nil wl
  | cons c cs ih =>
    rw [ltOk_cons_chr (h c (by simp))]
    exact ih (fun x hx => h x (by simp [hx]))

theorem ltOk_chunk {wl : List String} (hgood : ∀ m ∈ wl, goodNameB m = true)
    {ts : List (Bool × String)} (hts : ∀ tk ∈ ts, tk.2 ∈ wl) (b : List Char) :
    ltOk wl ((String.join (ts.map recOfTok)).toList ++ b) = ltOk wl b := by
  induction ts with
  | nil =>
    rw [List.map_nil, string_join_nil]
    rfl
  | cons tk ts ih =>
    rw [List.map_cons, string_join_cons, toList_append, List.append_assoc]
    obtain ⟨isCl, n⟩ := tk
    have hn : n ∈ wl := hts (isCl, n) (by simp)
    cases isCl
    · rw [show recOfTok (false, n) = openTagStr n from rfl, toList_openTagStr,
        List.cons_append, List.append_assoc, show ['>'] ++ _ = '>' :: _ from rfl,
        ltOk_cons_found (findTagCompletion_open _ hgood hn)]
      exact ih (fun x hx => hts x (by simp [hx]))
    · rw [show recOfTok (true, n) = closeTagStr n from rfl, toList_closeTagStr,
        List.cons_append, List.cons_append, List.append_assoc,
        show ['>'] ++ _ = '>' :: _ from rfl,
        ltOk_cons_found (findTagCompletion_close _ hgood hn)]
      exact ih (fun x hx => hts x (by simp [hx]))

theorem encOk_append_safe {wl : List String} {a : List Char}
    (h : ∀ x ∈ a, x ≠ '<' ∧ x ≠ '>' ∧ x ≠ '"' ∧ x ≠ '\'') (b : List Char) :
    encOk wl (a ++ b) = encOk wl b := by
  induction a with
  | nil => rfl
  | cons c a ih =>
    obtain ⟨h1, h2, h3, h4⟩ := h c (by simp)
    rw [List.cons_append, encOk_cons_chr h1 (by tauto),
      ih (fun x hx => h x (by simp [hx]))]

theorem encOk_chunk {wl : List String} (hgood : ∀ m ∈ wl, goodNameB m = true)
    {ts : List (Bool × String)} (hts : ∀ tk ∈ ts, tk.2 ∈ wl) (b : List Char) :
    encOk wl ((String.join (ts.map recOfTok)).toList ++ b) = encOk wl b := by
  induction ts with
  | nil =>
    rw [List.map_nil, string_join_nil]
    rfl
  | cons tk ts ih =>
    rw [List.map_cons, string_join_cons, toList_append, List.append_assoc]
    obtain ⟨isCl, n⟩ := tk
    have hn : n ∈ wl := hts (isCl, n) (by simp)
    cases isCl
    · rw [show recOfTok (false, n) = openTagStr n from rfl, toList_openTagStr,
        List.cons_append, List.append_assoc, show ['>'] ++ _ = '>' :: _ from rfl,
        encOk_cons_found (findTagCompletion_open _ hgood hn)]
      exact ih (fun x hx => hts x (by simp [hx]))
    · rw [show recOfTok (true, n) = closeTagStr n from rfl, toList_closeTagStr,
        List.cons_append, List.cons_append, List.append_assoc,
        show ['>'] ++ _ = '>' :: _ from rfl,
        encOk_cons_found (findTagCompletion_close _ hgood hn)]
      exact ih (fun x hx => hts x (by simp [hx]))

theorem encOk_chunkStr {wl : List String} (hgood : ∀ m ∈ wl, goodNameB m = true)
    {s : String} (hs : IsChunk wl s) (b : List Char) :
    encOk wl (s.toList ++ b) = encOk wl b := by
  obtain ⟨ts, hts, rfl⟩ := hs
  exact encOk_chunk hgood hts b

theorem ltOk_chunkStr {wl : List String} (hgood : ∀ m ∈ wl, goodNameB m = true)
    {s : String} (hs : IsChunk wl s) (b : List Char) :
    ltOk wl (s.toList ++ b) = ltOk wl b := by
  obtain ⟨ts, hts, rfl⟩ := hs
  exact ltOk_chunk hgood hts b

theorem encOk_assembleL {wl : List String} (hgood : ∀ m ∈ wl, goodNameB m = true) :
    ∀ (ps : List Piece) (ts2 : List String), (∀ s ∈ ts2, IsChunk wl s) →
    ∀ b, encOk wl (assembleL wl ps ts2 ++ b) = encOk wl b := by
  intro ps
  induction ps with
  | nil => intro ts2 _ b; rfl
  | cons p ps ih =>
    intro ts2 h b
    cases p with
    | chr c =>
      show encOk wl ((normalizeChar c ++ assembleL wl ps ts2) ++ b) = _
      rw [List.append_assoc, encOk_append_safe (fun x hx => normalizeChar_safe c x hx)]
      exact ih ts2 h b
    | tag isCl nm =>
      show encOk wl ((if wl.contains (lowerStr nm) then
          (ts2.headD "").toList ++ assembleL wl ps ts2.tail
        else assembleL wl ps ts2) ++ b) = _
      by_cases hw : lowerStr nm ∈ wl
      · rw [if_pos (by simpa using hw), List.append_assoc]
        have hhd : IsChunk wl (ts2.headD "") := by
          cases ts2 with
          | nil => exact ⟨[], by simp, rfl⟩
          | cons x l => exact h x (by simp)
        rw [encOk_chunkStr hgood hhd]
        exact ih ts2.tail (fun s hs => h s (List.mem_of_mem_tail hs)) b
      · rw [if_neg (by simpa using hw)]
        exact ih ts2 h b

theorem ltOk_assembleL {wl : List String} (hgood : ∀ m ∈ wl, goodNameB m = true) :
    ∀ (ps : List Piece) (ts2 : List String), (∀ s ∈ ts2, IsChunk wl s) →
    ∀ b, ltOk wl (assembleL wl ps ts2 ++ b) = ltOk wl b := by
  intro ps
  induction ps with
  | nil => intro ts2 _ b; rfl
  | cons p ps ih =>
    intro ts2 h b
    cases p with
    | chr c =>
      show ltOk wl ((normalizeChar c ++ assembleL wl ps ts2) ++ b) = _
      rw [List.append_assoc,
        ltOk_append_no_lt (fun x hx => (normalizeChar_safe c x hx).1)]
      exact ih ts2 h b
    | tag isCl nm =>
      show ltOk wl ((if wl.contains (lowerStr nm) then
          (ts2.headD "").toList ++ assembleL wl ps ts2.tail
        else assembleL wl ps ts2) ++ b) = _
      by_cases hw : lowerStr nm ∈ wl
      · rw [if_pos (by simpa using hw), List.append_assoc]
        have hhd : IsChunk wl (ts2.headD "") := by
          cases ts2 with
          | nil => exact ⟨[], by simp, rfl⟩
          | cons x l => exact h x (by simp)
        rw [ltOk_chunkStr hgood hhd]
        exact ih ts2.tail (fun s hs => h s (List.mem_of_mem_tail hs)) b
      · rw [if_neg (by simpa using hw)]
        exact ih ts2 h b

theorem tokenize_assembleL {wl : List String} (hgood : ∀ m ∈ wl, goodNameB m = true) :
    ∀ (ps : List Piece) (tss : List (List (Bool × String))),
      (∀ ts ∈ tss, ∀ tk ∈ ts, tk.2 ∈ wl) →
      (toksOf wl ps).length = tss.length →
      ∀ b, tokenize wl
          (assembleL wl ps (tss.map (fun ts => String.join (ts.map recOfTok))) ++ b) =
        tss.join ++ tokenize wl b := by
  intro ps
  induction ps with
  | nil =>
    intro tss h hlen b
    cases tss with
    | nil => rfl
    | cons x l => simp [toksOf] at hlen
  | cons p ps ih =>
    intro tss h hlen b
    cases p with
    | chr c =>
      show tokenize wl ((normalizeChar c ++ _) ++ b) = _
      rw [List.append_assoc,
        tokenize_append_no_lt (fun x hx => (normalizeChar_safe c x hx).1)]
      exact ih tss h (by simpa [toksOf] using hlen) b
    | tag isCl nm =>
      by_cases hw : lowerStr nm ∈ wl
      · cases tss with
        | nil =>
          exfalso
          rw [show toksOf wl (.tag isCl nm :: ps) =
            (isCl, lowerStr nm) :: toksOf wl ps by simp [toksOf, hw]] at hlen
          simp at hlen
        | cons ts tss =>
          show tokenize wl ((if wl.contains (lowerStr nm) then _ else _) ++ b) = _
          rw [if_pos (by simpa using hw)]
          show tokenize wl
            (((String.join (ts.map recOfTok)).toList ++ _) ++ b) = _
          rw [List.append_assoc, tokenize_chunk hgood (h ts (by simp))]
          simp only [List.map_cons, List.tail_cons]
          rw [ih tss (fun ts' hts' => h ts' (by simp [hts'])) ?hlen b]
          · simp
          case hlen =>
            rw [show toksOf wl (.tag isCl nm :: ps) =
              (isCl, lowerStr nm) :: toksOf wl ps by simp [toksOf, hw]] at hlen
            simpa using hlen
      · show tokenize wl ((if wl.contains (lowerStr nm) then _ else _) ++ b) = _
        rw [if_neg (by simpa using hw)]
        exact ih tss h (by simpa [toksOf, hw] using hlen) b

/-! ## Record strings under the balancing primitives -/

theorem voidElements_good : ∀ v ∈ voidElements, goodNameB v = true := by decide

theorem nameChar_wordChar {c : Char} (h : isNameChar c = true) :
    isWordChar c = true := by
  unfold isWordChar
  unfold isNameChar at h
  rw [h]
  rfl

theorem isCloseTag_openTagStr {n : String} (hgood : goodNameB n = true) :
    isCloseTag (openTagStr n) = false := by
  obtain ⟨hne, hall, hhd⟩ := goodNameB_elim hgood
  unfold isCloseTag
  rw [toList_openTagStr]
  cases hcs : n.toList with
  | nil => exact absurd hcs hne
  | cons c cs =>
    rw [decide_eq_false_iff_not]
    simp only [List.cons_append, List.get?]
    intro hcon
    have hc : c = '/' := by cases hcon; rfl
    subst hc
    exact absurd (hhd '/' cs hcs) (by decide)

theorem isCloseTag_closeTagStr (n : String) : isCloseTag (closeTagStr n) = true := by
  unfold isCloseTag
  rw [toList_closeTagStr]
  simp [List.get?]

theorem closeFormOf_openTagStr (n : String) :
    closeFormOf (openTagStr n) = closeTagStr n := by
  unfold closeFormOf
  rw [toList_openTagStr]
  apply toList_inj
  rw [toList_append, toList_closeTagStr]
  rfl

theorem closeTagStr_inj {a b : String} (h : closeTagStr a = closeTagStr b) : a = b := by
  have h1 : (closeTagStr a).toList = (closeTagStr b).toList := by rw [h]
  rw [toList_closeTagStr, toList_closeTagStr] at h1
  simp only [List.cons.injEq, true_and] at h1
  exact toList_inj (List.append_cancel_right h1)

/-- The boundary form of the name-prefix lemma, matching the `\b` of the
void-element regex: if a name is a prefix of `b ++ ['>']` and the next
character after it is not a word character (or there is none), the names
coincide. -/
theorem nameChars_gt_prefix_boundary {a b : List Char}
    (ha : ∀ c ∈ a, isNameChar c = true) (hb : ∀ c ∈ b, isNameChar c = true)
    (hpre : a <+: (b ++ ['>']))
    (hbnd : (match (b ++ ['>']).drop a.length with
             | [] => true
             | c :: _ => !isWordChar c) = true) : a = b := by
  induction a generalizing b with
  | nil =>
    cases b with
    | nil => rfl
    | cons d b' =>
      simp only [List.length_nil, List.drop_zero, List.cons_append] at hbnd
      have hd := hb d (by simp)
      rw [Bool.not_eq_true'] at hbnd
      rw [nameChar_wordChar hd] at hbnd
      cases hbnd
  | cons c a' ih =>
    cases b with
    | nil =>
      rw [List.nil_append] at hpre
      have hc := (List.cons_prefix_cons.mp hpre).1
      have hna := ha c (by simp)
      rw [hc] at hna
      exact absurd hna (by decide)
    | cons d b' =>
      rw [List.cons_append] at hpre
      have h1 := List.cons_prefix_cons.mp hpre
      have h2 : a' = b' := by
        apply ih (fun x hx => ha x (by simp [hx])) (fun x hx => hb x (by simp [hx])) h1.2
        rw [show ((d :: b') ++ ['>']).drop (c :: a').length =
          (b' ++ ['>']).drop a'.length by simp] at hbnd
        exact hbnd
      rw [h1.1, h2]

theorem isVoidOpen_openTagStr {n : String} (hgood : goodNameB n = true) :
    isVoidOpen (openTagStr n) = decide (n ∈ voidElements) := by
  obtain ⟨hne, hall, hhd⟩ := goodNameB_elim hgood
  by_cases hv : n ∈ voidElements
  · rw [decide_eq_true hv]
    unfold isVoidOpen
    rw [List.any_eq_true]
    refine ⟨n, hv, ?_⟩
    rw [Bool.and_eq_true]
    constructor
    · rw [List.isPrefixOf_iff_prefix, toList_openTagStr]
      show ("<" ++ n).toList <+: _
      rw [toList_append]
      show '<' :: n.toList <+: '<' :: (n.toList ++ ['>'])
      rw [List.cons_prefix_cons]
      exact ⟨rfl, List.prefix_append _ _⟩
    · rw [toList_openTagStr,
        show n.length + 1 = n.toList.length + 1 from rfl,
        show ('<' :: (n.toList ++ ['>'])).drop (n.toList.length + 1) =
          (n.toList ++ ['>']).drop n.toList.length from rfl,
        List.drop_left]
      decide
  · rw [decide_eq_false hv]
    unfold isVoidOpen
    rw [← Bool.not_eq_true, List.any_eq_true]
    rintro ⟨v, hvm, hf⟩
    rw [Bool.and_eq_true] at hf
    obtain ⟨hf1, hf2⟩ := hf
    obtain ⟨hvne, hvall, hvhd⟩ := goodNameB_elim (voidElements_good v hvm)
    have hveq : v.toList = n.toList := by
      apply nameChars_gt_prefix_boundary hvall hall
      · rw [List.isPrefixOf_iff_prefix, toList_openTagStr] at hf1
        have : ("<" ++ v).toList = '<' :: v.toList := by
          rw [toList_append]
          rfl
        rw [this, List.cons_prefix_cons] at hf1
        exact hf1.2
      · rw [toList_openTagStr] at hf2
        rw [show (n.toList ++ ['>']).drop v.toList.length =
          ('<' :: (n.toList ++ ['>'])).drop (v.length + 1) from rfl]
        exact hf2
    exact hv (toList_inj hveq ▸ hvm)

/-! ## `popThrough`: the topmost-match search -/

theorem popThrough_not_mem {t : String} :
    ∀ {st : List String}, t ∉ st → popThrough t st = none := by
  intro st
  induction st with
  | nil => intro _; rfl
  | cons s st ih =>
    intro h
    unfold popThrough
    rw [if_neg (fun he => h (by rw [← he]; exact List.mem_cons_self s st)),
      ih (fun hm => h (List.mem_cons_of_mem s hm))]

theorem popThrough_split {t : String} :
    ∀ {as : List String} (bs : List String), t ∉ as →
      popThrough t (as ++ t :: bs) = some (as ++ [t], bs) := by
  intro as
  induction as with
  | nil =>
    intro bs _
    show popThrough t (t :: bs) = _
    unfold popThrough
    rw [if_pos rfl]
    rfl
  | cons a as ih =>
    intro bs h
    show popThrough t (a :: (as ++ t :: bs)) = _
    unfold popThrough
    rw [if_neg (fun he => h (by rw [← he]; exact List.mem_cons_self a as)),
      ih bs (fun hm => h (List.mem_cons_of_mem a hm))]
    rfl

theorem mem_dropWhile_cons_of_mem {n : String} :
    ∀ {ns : List String}, n ∈ ns →
      ∃ bs, ns.dropWhile (fun m => m != n) = n :: bs := by
  intro ns
  induction ns with
  | nil => intro h; cases h
  | cons m ns ih =>
    intro h
    by_cases hm : m = n
    · subst hm
      exact ⟨ns, by simp [List.dropWhile_cons]⟩
    · rcases List.mem_cons.mp h with h' | h'
      · exact absurd h'.symm hm
      · obtain ⟨bs, hbs⟩ := ih h'
        refine ⟨bs, ?_⟩
        rw [List.dropWhile_cons, if_pos (by simp [hm]), hbs]

theorem takeWhile_ne_not_mem (n : String) (ns : List String) :
    n ∉ ns.takeWhile (fun m => m != n) := by
  intro h
  have := List.mem_takeWhile_imp h
  simp at this

theorem mem_of_mem_takeWhile {x : String} {p : String → Bool} {ns : List String}
    (h : x ∈ ns.takeWhile p) : x ∈ ns :=
  ((ns.takeWhile_sublist p).subset) h

theorem mem_of_mem_dropWhile_tail {x : String} {p : String → Bool} :
    ∀ {ns : List String}, x ∈ (ns.dropWhile p).tail → x ∈ ns := by
  intro ns h
  have h1 : x ∈ ns.dropWhile p := List.mem_of_mem_tail h
  exact ((ns.dropWhile_sublist p).subset) h1

/-! ## The balancing loop simulates the name-level machine -/

theorem balanceGo_sim :
    ∀ (toks : List (Bool × String)) (ns : List String),
      (∀ tk ∈ toks, goodNameB tk.2 = true) →
      balanceGo (ns.map closeTagStr) (toks.map recOfTok) =
        ((balanceToks ns toks).1.map (fun ts => String.join (ts.map recOfTok)),
         (balanceToks ns toks).2.map closeTagStr) := by
  intro toks
  induction toks with
  | nil => intro ns _; rfl
  | cons tk toks ih =>
    intro ns htoks
    obtain ⟨isCl, n⟩ := tk
    have hng : goodNameB n = true := htoks (isCl, n) (by simp)
    have htoks' : ∀ tk ∈ toks, goodNameB tk.2 = true :=
      fun tk htk => htoks tk (by simp [htk])
    cases isCl with
    | false =>
      show balanceGo (ns.map closeTagStr) (openTagStr n :: toks.map recOfTok) = _
      rw [show balanceGo (ns.map closeTagStr) (openTagStr n :: toks.map recOfTok) =
        if isCloseTag (openTagStr n) then _ else
          if isVoidOpen (openTagStr n) then
            (openTagStr n ::
              (balanceGo (ns.map closeTagStr) (toks.map recOfTok)).1,
             (balanceGo (ns.map closeTagStr) (toks.map recOfTok)).2)
          else
            (openTagStr n ::
              (balanceGo (closeFormOf (openTagStr n) :: ns.map closeTagStr)
                (toks.map recOfTok)).1,
             (balanceGo (closeFormOf (openTagStr n) :: ns.map closeTagStr)
                (toks.map recOfTok)).2) from rfl]
      rw [isCloseTag_openTagStr hng, if_neg (by simp), isVoidOpen_openTagStr hng]
      by_cases hv : n ∈ voidElements
      · rw [if_pos (by simp [hv]), ih ns htoks']
        show _ = ((balanceToks ns ((false, n) :: toks)).1.map _,
          (balanceToks ns ((false, n) :: toks)).2.map _)
        simp only [balanceToks, if_pos hv]
        simp [recOfTok, string_join_cons, string_join_nil, String.append_nil]
      · rw [if_neg (by simp [hv]), closeFormOf_openTagStr,
          show closeTagStr n :: ns.map closeTagStr = ((n :: ns).map closeTagStr)
            from rfl,
          ih (n :: ns) htoks']
        show _ = ((balanceToks ns ((false, n) :: toks)).1.map _,
          (balanceToks ns ((false, n) :: toks)).2.map _)
        simp only [balanceToks, if_neg hv]
        simp [recOfTok, string_join_cons, string_join_nil, String.append_nil]
    | true =>
      show balanceGo (ns.map closeTagStr) (closeTagStr n :: toks.map recOfTok) = _
      by_cases hmem : n ∈ ns
      · obtain ⟨bs, hbs⟩ := mem_dropWhile_cons_of_mem hmem
        have hsplit : ns = ns.takeWhile (fun m => m != n) ++ n :: bs := by
          conv_lhs => rw [← List.takeWhile_append_dropWhile
            (p := fun m => m != n) (l := ns)]
          rw [hbs]
        have hnotin : closeTagStr n ∉
            (ns.takeWhile (fun m => m != n)).map closeTagStr := by
          intro hcn
          obtain ⟨m, hm1, hm2⟩ := List.mem_map.mp hcn
          exact absurd (closeTagStr_inj hm2 ▸ hm1)
            (takeWhile_ne_not_mem n ns)
        have hpop : popThrough (closeTagStr n) (ns.map closeTagStr) =
            some ((ns.takeWhile (fun m => m != n) ++ [n]).map closeTagStr,
              bs.map closeTagStr) := by
          conv_lhs => rw [hsplit]
          rw [List.map_append, List.map_cons, popThrough_split _ hnotin,
            List.map_append]
          rfl
        rw [show balanceGo (ns.map closeTagStr)
            (closeTagStr n :: toks.map recOfTok) =
          if isCloseTag (closeTagStr n) then
            match popThrough (closeTagStr n) (ns.map closeTagStr) with
            | some pr =>
              (String.join pr.1 ::
                (balanceGo pr.2 (toks.map recOfTok)).1,
               (balanceGo pr.2 (toks.map recOfTok)).2)
            | none =>
              ("" :: (balanceGo (ns.map closeTagStr) (toks.map recOfTok)).1,
               (balanceGo (ns.map closeTagStr) (toks.map recOfTok)).2)
          else _ from rfl]
        rw [isCloseTag_closeTagStr, if_pos rfl, hpop]
        dsimp only
        rw [ih bs htoks']
        show _ = ((balanceToks ns ((true, n) :: toks)).1.map _,
          (balanceToks ns ((true, n) :: toks)).2.map _)
        simp only [balanceToks, if_pos hmem, hbs, List.tail_cons, List.map_cons]
        congr 2
        rw [List.map_map]
        rfl
      · have hnone : popThrough (closeTagStr n) (ns.map closeTagStr) = none := by
          apply popThrough_not_mem
          intro hcn
          obtain ⟨m, hm1, hm2⟩ := List.mem_map.mp hcn
          exact hmem (closeTagStr_inj hm2 ▸ hm1)
        rw [show balanceGo (ns.map closeTagStr)
            (closeTagStr n :: toks.map recOfTok) =
          if isCloseTag (closeTagStr n) then
            match popThrough (closeTagStr n) (ns.map closeTagStr) with
            | some pr =>
              (String.join pr.1 ::
                (balanceGo pr.2 (toks.map recOfTok)).1,
               (balanceGo pr.2 (toks.map recOfTok)).2)
            | none =>
              ("" :: (balanceGo (ns.map closeTagStr) (toks.map recOfTok)).1,
               (balanceGo (ns.map closeTagStr) (toks.map recOfTok)).2)
          else _ from rfl]
        rw [isCloseTag_closeTagStr, if_pos rfl, hnone]
        dsimp only
        rw [ih ns htoks']
        show _ = ((balanceToks ns ((true, n) :: toks)).1.map _,
          (balanceToks ns ((true, n) :: toks)).2.map _)
        simp only [balanceToks, if_neg hmem, List.map_cons]
        rfl

/-! ## Properties of the name-level machine -/

theorem balanceToks_len :
    ∀ (ts : List (Bool × String)) (ns : List String),
      (balanceToks ns ts).1.length = ts.length := by
  intro ts
  induction ts with
  | nil => intro ns; rfl
  | cons tk ts ih =>
    intro ns
    obtain ⟨isCl, n⟩ := tk
    cases isCl
    · simp only [balanceToks, List.length_cons, ih]
    · by_cases hmem : n ∈ ns
      · simp only [balanceToks, if_pos hmem, List.length_cons, ih]
      · simp only [balanceToks, if_neg hmem, List.length_cons, ih]

theorem balanceToks_out_names (P : String → Prop) :
    ∀ (ts : List (Bool × String)) (ns : List String),
      (∀ m ∈ ns, P m) → (∀ tk ∈ ts, P tk.2) →
      (∀ out ∈ (balanceToks ns ts).1, ∀ tk ∈ out, P tk.2) ∧
      (∀ m ∈ (balanceToks ns ts).2, P m) := by
  intro ts
  induction ts with
  | nil =>
    intro ns hns _
    refine ⟨?_, hns⟩
    intro out hout
    cases hout
  | cons tk ts ih =>
    intro ns hns htoks
    obtain ⟨isCl, n⟩ := tk
    have hn : P n := htoks (isCl, n) (by simp)
    have htoks' : ∀ tk ∈ ts, P tk.2 := fun tk htk => htoks tk (by simp [htk])
    cases isCl
    · by_cases hv : n ∈ voidElements
      · have hrec := ih ns hns htoks'
        simp only [balanceToks, if_pos hv]
        refine ⟨?_, hrec.2⟩
        intro out hout tk htk
        rcases List.mem_cons.mp hout with h' | h'
        · subst h'
          simp only [List.mem_singleton] at htk
          subst htk
          exact hn
        · exact hrec.1 out h' tk htk
      · have hrec := ih (n :: ns) (by
          intro m hm
          rcases List.mem_cons.mp hm with h' | h'
          · exact h' ▸ hn
          · exact hns m h') htoks'
        simp only [balanceToks, if_neg hv]
        refine ⟨?_, hrec.2⟩
        intro out hout tk htk
        rcases List.mem_cons.mp hout with h' | h'
        · subst h'
          simp only [List.mem_singleton] at htk
          subst htk
          exact hn
        · exact hrec.1 out h' tk htk
    · by_cases hmem : n ∈ ns
      · obtain ⟨bs, hbs⟩ := mem_dropWhile_cons_of_mem hmem
        have hbsmem : ∀ m ∈ bs, P m := by
          intro m hm
          apply hns
          exact mem_of_mem_dropWhile_tail (by rw [hbs]; exact hm)
        have hrec := ih bs hbsmem htoks'
        simp only [balanceToks, if_pos hmem, hbs, List.tail_cons]
        refine ⟨?_, hrec.2⟩
        intro out hout tk htk
        rcases List.mem_cons.mp hout with h' | h'
        · subst h'
          obtain ⟨m, hm1, hm2⟩ := List.mem_map.mp htk
          rw [← hm2]
          rcases List.mem_append.mp hm1 with h'' | h''
          · exact hns m (mem_of_mem_takeWhile h'')
          · rw [List.mem_singleton] at h''
            exact h'' ▸ hn
        · exact hrec.1 out h' tk htk
      · have hrec := ih ns hns htoks'
        simp only [balanceToks, if_neg hmem]
        refine ⟨?_, hrec.2⟩
        intro out hout tk htk
        rcases List.mem_cons.mp hout with h' | h'
        · subst h'
          cases htk
        · exact hrec.1 out h' tk htk

theorem balanceToks_close_nonvoid :
    ∀ (ts : List (Bool × String)) (ns : List String),
      (∀ m ∈ ns, m ∉ voidElements) →
      (∀ out ∈ (balanceToks ns ts).1, ∀ tk ∈ out,
        tk.1 = true → tk.2 ∉ voidElements) ∧
      (∀ m ∈ (balanceToks ns ts).2, m ∉ voidElements) := by
  intro ts
  induction ts with
  | nil =>
    intro ns hns
    refine ⟨?_, hns⟩
    intro out hout
    cases hout
  | cons tk ts ih =>
    intro ns hns
    obtain ⟨isCl, n⟩ := tk
    cases isCl
    · by_cases hv : n ∈ voidElements
      · have hrec := ih ns hns
        simp only [balanceToks, if_pos hv]
        refine ⟨?_, hrec.2⟩
        intro out hout tk htk hcl
        rcases List.mem_cons.mp hout with h' | h'
        · subst h'
          simp only [List.mem_singleton] at htk
          subst htk
          cases hcl
        · exact hrec.1 out h' tk htk hcl
      · have hrec := ih (n :: ns) (by
          intro m hm
          rcases List.mem_cons.mp hm with h' | h'
          · exact h' ▸ hv
          · exact hns m h')
        simp only [balanceToks, if_neg hv]
        refine ⟨?_, hrec.2⟩
        intro out hout tk htk hcl
        rcases List.mem_cons.mp hout with h' | h'
        · subst h'
          simp only [List.mem_singleton] at htk
          subst htk
          cases hcl
        · exact hrec.1 out h' tk htk hcl
    · by_cases hmem : n ∈ ns
      · obtain ⟨bs, hbs⟩ := mem_dropWhile_cons_of_mem hmem
        have hbsmem : ∀ m ∈ bs, m ∉ voidElements := by
          intro m hm
          apply hns
          exact mem_of_mem_dropWhile_tail (by rw [hbs]; exact hm)
        have hrec := ih bs hbsmem
        simp only [balanceToks, if_pos hmem, hbs, List.tail_cons]
        refine ⟨?_, hrec.2⟩
        intro out hout tk htk _
        rcases List.mem_cons.mp hout with h' | h'
        · subst h'
          obtain ⟨m, hm1, hm2⟩ := List.mem_map.mp htk
          rw [← hm2]
          rcases List.mem_append.mp hm1 with h'' | h''
          · exact hns m (mem_of_mem_takeWhile h'')
          · rw [List.mem_singleton] at h''
            exact h'' ▸ hns n hmem
        · exact hrec.1 out h' tk htk (by assumption)
      · have hrec := ih ns hns
        simp only [balanceToks, if_neg hmem]
        refine ⟨?_, hrec.2⟩
        intro out hout tk htk hcl
        rcases List.mem_cons.mp hout with h' | h'
        · subst h'
          cases htk
        · exact hrec.1 out h' tk htk hcl

/-! ## Runs of the well-nestedness machine -/

theorem runToks_append :
    ∀ (a b : List (Bool × String)) (st : List String),
      runToks st (a ++ b) =
        match runToks st a with
        | some m => runToks m b
        | none => none := by
  intro a
  induction a with
  | nil => intro b st; rfl
  | cons tk a ih =>
    intro b st
    obtain ⟨isCl, n⟩ := tk
    cases isCl
    · simp only [List.cons_append, runToks, List.append_eq]
      by_cases hv : n ∈ voidElements
      · rw [if_pos hv, if_pos hv, ih]
      · rw [if_neg hv, if_neg hv, ih]
    · cases st with
      | nil => rfl
      | cons m st' =>
        simp only [List.cons_append, runToks, List.append_eq]
        by_cases hm : m = n
        · rw [if_pos hm, if_pos hm, ih]
        · rw [if_neg hm, if_neg hm]

theorem runToks_pops :
    ∀ (xs st : List String) (ts : List (Bool × String)),
      runToks (xs ++ st) (xs.map (fun m => (true, m)) ++ ts) = runToks st ts := by
  intro xs
  induction xs with
  | nil => intro st ts; rfl
  | cons x xs ih =>
    intro st ts
    simp only [List.cons_append, List.map_cons, runToks, List.append_eq,
      eq_self_iff_true, ite_true]
    exact ih st ts

theorem runToks_closes (st : List String) :
    runToks st (st.map (fun m => (true, m))) = some [] := by
  have h := runToks_pops st [] []
  simpa using h

/-- The stream of rewritten records is accepted by the machine and leaves
exactly the final stack. -/
theorem balanceToks_valid :
    ∀ (ts : List (Bool × String)) (ns : List String),
      runToks ns (balanceToks ns ts).1.join = some (balanceToks ns ts).2 := by
  intro ts
  induction ts with
  | nil => intro ns; rfl
  | cons tk ts ih =>
    intro ns
    obtain ⟨isCl, n⟩ := tk
    cases isCl
    · by_cases hv : n ∈ voidElements
      · simp only [balanceToks, if_pos hv, List.join_cons, List.singleton_append]
        simp only [runToks, if_pos hv]
        exact ih ns
      · simp only [balanceToks, if_neg hv, List.join_cons, List.singleton_append]
        simp only [runToks, if_neg hv]
        exact ih (n :: ns)
    · by_cases hmem : n ∈ ns
      · obtain ⟨bs, hbs⟩ := mem_dropWhile_cons_of_mem hmem
        have hsplit : ns = ns.takeWhile (fun m => m != n) ++ n :: bs := by
          conv_lhs => rw [← List.takeWhile_append_dropWhile
            (p := fun m => m != n) (l := ns)]
          rw [hbs]
        simp only [balanceToks, if_pos hmem, hbs, List.tail_cons, List.join_cons]
        generalize has : ns.takeWhile (fun m => m != n) = as
        rw [has] at hsplit
        conv_lhs => rw [hsplit]
        rw [show as ++ n :: bs = (as ++ [n]) ++ bs by simp]
        rw [runToks_pops]
        exact ih bs
      · simp only [balanceToks, if_neg hmem, List.join_cons, List.nil_append]
        exact ih ns

theorem countTok_append (tk : Bool × String) (a b : List (Bool × String)) :
    countTok tk (a ++ b) = countTok tk a + countTok tk b := by
  induction a with
  | nil => simp [countTok]
  | cons x a ih =>
    show (if x = tk then 1 else 0) + countTok tk (a ++ b) = _
    rw [ih]
    show _ = (if x = tk then 1 else 0) + countTok tk a + countTok tk b
    omega

theorem countTok_eq_zero_of_not_mem {tk : Bool × String} :
    ∀ {ts : List (Bool × String)}, tk ∉ ts → countTok tk ts = 0 := by
  intro ts
  induction ts with
  | nil => intro _; rfl
  | cons x ts ih =>
    intro h
    show (if x = tk then 1 else 0) + countTok tk ts = 0
    rw [if_neg (fun he => h (by rw [← he]; exact List.mem_cons_self x ts)),
      ih (fun hm => h (List.mem_cons_of_mem x hm))]

/-- Conservation of per-name counts along an accepted run: opens add to the
stack, closes remove from it. Stated for non-void names, whose opens are
pushed. -/
theorem runToks_count {n : String} (hv : n ∉ voidElements) :
    ∀ (ts : List (Bool × String)) (st st' : List String),
      runToks st ts = some st' →
      countName n st + countTok (false, n) ts =
        countName n st' + countTok (true, n) ts := by
  intro ts
  induction ts with
  | nil =>
    intro st st' h
    cases h
    rfl
  | cons tk ts ih =>
    intro st st' h
    obtain ⟨isCl, m⟩ := tk
    cases isCl
    · simp only [runToks] at h
      have hof : countTok (false, n) ((false, m) :: ts) =
          (if m = n then 1 else 0) + countTok (false, n) ts := by
        show (if ((false, m) : Bool × String) = (false, n) then 1 else 0) + _ = _
        by_cases hmn : m = n
        · rw [if_pos (by rw [hmn]), if_pos hmn]
        · rw [if_neg (by simp [hmn]), if_neg hmn]
      have hoc : countTok (true, n) ((false, m) :: ts) = countTok (true, n) ts := by
        show (if ((false, m) : Bool × String) = (true, n) then 1 else 0) + _ = _
        rw [if_neg (by simp)]
        omega
      rw [hof, hoc]
      by_cases hm : m ∈ voidElements
      · rw [if_pos hm] at h
        have hrec := ih st st' h
        have hmn : m ≠ n := fun he => hv (he ▸ hm)
        rw [if_neg hmn]
        omega
      · rw [if_neg hm] at h
        have hrec := ih (m :: st) st' h
        have hcn : countName n (m :: st) =
            (if m = n then 1 else 0) + countName n st := rfl
        rw [hcn] at hrec
        omega
    · simp only [runToks] at h
      cases st with
      | nil => cases h
      | cons s st2 =>
        dsimp only at h
        have hcf : countTok (false, n) ((true, m) :: ts) =
            countTok (false, n) ts := by
          show (if ((true, m) : Bool × String) = (false, n) then 1 else 0) + _ = _
          rw [if_neg (by simp)]
          omega
        have hct : countTok (true, n) ((true, m) :: ts) =
            (if m = n then 1 else 0) + countTok (true, n) ts := by
          show (if ((true, m) : Bool × String) = (true, n) then 1 else 0) + _ = _
          by_cases hmn : m = n
          · rw [if_pos (by rw [hmn]), if_pos hmn]
          · rw [if_neg (by simp [hmn]), if_neg hmn]
        rw [hcf, hct]
        by_cases hs : s = m
        · rw [if_pos hs] at h
          have hrec := ih st2 st' h
          have hcn : countName n (s :: st2) =
              (if s = n then 1 else 0) + countName n st2 := rfl
          rw [hcn]
          by_cases hmn : m = n
          · rw [if_pos (hs.trans hmn), if_pos hmn]
            omega
          · rw [if_neg (fun he => hmn ((hs.symm.trans he))), if_neg hmn]
            omega
        · rw [if_neg hs] at h
          cases h

/-! ## The token stream of the stripped output -/

theorem ltSub_no_lt (cs : List Char) : ∀ x ∈ ltSub cs, x ≠ '<' := by
  induction cs with
  | nil => intro x hx; cases hx
  | cons c cs ih =>
    intro x hx
    rw [show ltSub (c :: cs) =
      (if c = '<' then "&lt;".toList else [c]) ++ ltSub cs from rfl] at hx
    rcases List.mem_append.mp hx with hx | hx
    · by_cases hc : c = '<'
      · rw [if_pos hc] at hx
        have hx' : x ∈ ['&', 'l', 't', ';'] := hx
        fin_cases hx' <;> decide
      · rw [if_neg hc, List.mem_singleton] at hx
        subst hx
        exact hc
    · exact ih x hx

theorem toksOf_mem_wl (wl : List String) (ps : List Piece) :
    ∀ tk ∈ toksOf wl ps, tk.2 ∈ wl := by
  intro tk htk
  unfold toksOf at htk
  obtain ⟨p, hp, hf⟩ := List.mem_filterMap.mp htk
  cases p with
  | chr c => simp at hf
  | tag isCl nm =>
    dsimp only at hf
    by_cases hw : lowerStr nm ∈ wl
    · rw [if_pos (by simpa using hw)] at hf
      cases hf
      exact hw
    · rw [if_neg (by simpa using hw)] at hf
      cases hf

theorem map_true_eq_map_closeTagStr (ms : List String) :
    (ms.map (fun m => ((true, m) : Bool × String))).map recOfTok =
      ms.map closeTagStr := by
  rw [List.map_map]
  rfl

/-- The token sequence of the stripped output, for a non-empty whitelist of
well-formed names: the rewritten record tokens in order, then one close
token per still-open name. -/
theorem strip_tokens (value : String) (wl : List String) (hwl : wl ≠ [])
    (hgood : ∀ m ∈ wl, goodNameB m = true) :
    tokenize wl (strip_html_tags value wl).toList =
      (balanceToks [] (toksOf wl (lex (bracketEscape value.toList)))).1.join ++
      (balanceToks [] (toksOf wl (lex (bracketEscape value.toList)))).2.map
        (fun m => (true, m)) := by
  rw [strip_eq_assembleL value wl hwl, toList_append]
  rw [show (String.mk (assembleL wl (lex (bracketEscape value.toList))
      ((balance_tags ((toksOf wl
        (lex (bracketEscape value.toList))).map recOfTok)).1))).toList =
    assembleL wl (lex (bracketEscape value.toList))
      ((balance_tags ((toksOf wl
        (lex (bracketEscape value.toList))).map recOfTok)).1) from rfl]
  have hmem := toksOf_mem_wl wl (lex (bracketEscape value.toList))
  have hsim := balanceGo_sim (toksOf wl (lex (bracketEscape value.toList)))
    [] (fun tk htk => hgood tk.2 (hmem tk htk))
  simp only [List.map_nil] at hsim
  have hb1 : (balance_tags ((toksOf wl
      (lex (bracketEscape value.toList))).map recOfTok)).1 =
    (balanceToks [] (toksOf wl (lex (bracketEscape value.toList)))).1.map
      (fun ts => String.join (ts.map recOfTok)) := by
    unfold balance_tags
    rw [hsim]
  have hb2 : (balance_tags ((toksOf wl
      (lex (bracketEscape value.toList))).map recOfTok)).2 =
    String.join
      ((balanceToks [] (toksOf wl (lex (bracketEscape value.toList)))).2.map
        closeTagStr) := by
    unfold balance_tags
    rw [hsim]
  rw [hb1, hb2]
  have hnames := balanceToks_out_names (fun m => m ∈ wl)
    (toksOf wl (lex (bracketEscape value.toList))) [] (by intro m hm; cases hm) hmem
  rw [tokenize_assembleL hgood _ _ hnames.1
    (by rw [balanceToks_len])]
  congr 1
  rw [← map_true_eq_map_closeTagStr]
  have := @tokenize_chunk wl hgood
    ((balanceToks [] (toksOf wl (lex (bracketEscape value.toList)))).2.map
      (fun m => ((true, m) : Bool × String)))
    (by
      intro tk htk
      obtain ⟨m, hm1, hm2⟩ := List.mem_map.mp htk
      rw [← hm2]
      exact hnames.2 m hm1) []
  rw [List.append_nil] at this
  rw [this, tokenize_nil, List.append_nil]

/-- The balanced record strings and the trailing closers of a strip call
are concatenations of whitelisted bare tags. -/
theorem strip_balance_chunks (value : String) (wl : List String)
    (hgood : ∀ m ∈ wl, goodNameB m = true) :
    (∀ s ∈ (balance_tags ((toksOf wl
        (lex (bracketEscape value.toList))).map recOfTok)).1, IsChunk wl s) ∧
    IsChunk wl (balance_tags ((toksOf wl
      (lex (bracketEscape value.toList))).map recOfTok)).2 := by
  have hmem := toksOf_mem_wl wl (lex (bracketEscape value.toList))
  have hsim := balanceGo_sim (toksOf wl (lex (bracketEscape value.toList)))
    [] (fun tk htk => hgood tk.2 (hmem tk htk))
  simp only [List.map_nil] at hsim
  have hnames := balanceToks_out_names (fun m => m ∈ wl)
    (toksOf wl (lex (bracketEscape value.toList))) [] (by intro m hm; cases hm) hmem
  constructor
  · intro s hs
    rw [show (balance_tags ((toksOf wl
        (lex (bracketEscape value.toList))).map recOfTok)).1 =
      (balanceToks [] (toksOf wl (lex (bracketEscape value.toList)))).1.map
        (fun ts => String.join (ts.map recOfTok)) by
        unfold balance_tags
        rw [hsim]] at hs
    obtain ⟨ts, hts1, hts2⟩ := List.mem_map.mp hs
    exact ⟨ts, fun tk htk => hnames.1 ts hts1 tk htk, hts2.symm⟩
  · rw [show (balance_tags ((toksOf wl
        (lex (bracketEscape value.toList))).map recOfTok)).2 =
      String.join
        ((balanceToks [] (toksOf wl (lex (bracketEscape value.toList)))).2.map
          closeTagStr) by
        unfold balance_tags
        rw [hsim]]
    refine ⟨(balanceToks [] (toksOf wl
      (lex (bracketEscape value.toList)))).2.map (fun m => (true, m)), ?_, ?_⟩
    · intro tk htk
      obtain ⟨m, hm1, hm2⟩ := List.mem_map.mp htk
      rw [← hm2]
      exact hnames.2 m hm1
    · rw [map_true_eq_map_closeTagStr]

/-! ## Lower-casing arithmetic (for the idempotence claim) -/

theorem toNat_ofNat_valid {n : Nat} (h : n < 55296) : (Char.ofNat n).toNat = n := by
  unfold Char.ofNat
  rw [dif_pos (Or.inl h)]
  rfl

theorem lowerChar_of_upper {c : Char} (h1 : 65 ≤ c.toNat) (h2 : c.toNat ≤ 90) :
    (lowerChar c).toNat = c.toNat + 32 := by
  unfold lowerChar
  rw [if_pos (by simp only [Bool.and_eq_true, decide_eq_true_eq]; exact ⟨h1, h2⟩)]
  exact toNat_ofNat_valid (by omega)

theorem lowerChar_of_not_upper {c : Char} (h : ¬(65 ≤ c.toNat ∧ c.toNat ≤ 90)) :
    lowerChar c = c := by
  unfold lowerChar
  rw [if_neg]
  simp only [Bool.and_eq_true, decide_eq_true_eq]
  intro hc
  exact h ⟨hc.1, hc.2⟩

theorem lowerChar_idem (c : Char) : lowerChar (lowerChar c) = lowerChar c := by
  by_cases h : 65 ≤ c.toNat ∧ c.toNat ≤ 90
  · have ht := lowerChar_of_upper h.1 h.2
    apply lowerChar_of_not_upper
    omega
  · simp only [lowerChar_of_not_upper h]

theorem lowerStr_toList (s : String) :
    (lowerStr s).toList = s.toList.map lowerChar := rfl

theorem lowerStr_idem (s : String) : lowerStr (lowerStr s) = lowerStr s := by
  unfold lowerStr
  congr 1
  show (s.toList.map lowerChar).map lowerChar = s.toList.map lowerChar
  rw [List.map_map]
  exact List.map_congr_left (fun c _ => lowerChar_idem c)

theorem isAlpha_iff_toNat {c : Char} : c.isAlpha = true ↔
    (65 ≤ c.toNat ∧ c.toNat ≤ 90) ∨ (97 ≤ c.toNat ∧ c.toNat ≤ 122) := by
  simp only [Char.isAlpha, Char.isUpper, Char.isLower, Bool.or_eq_true,
    Bool.and_eq_true, decide_eq_true_eq]
  constructor
  · rintro (⟨h1, h2⟩ | ⟨h1, h2⟩)
    · exact Or.inl ⟨h1, h2⟩
    · exact Or.inr ⟨h1, h2⟩
  · rintro (⟨h1, h2⟩ | ⟨h1, h2⟩)
    · exact Or.inl ⟨h1, h2⟩
    · exact Or.inr ⟨h1, h2⟩

theorem isDigit_iff_toNat {c : Char} : c.isDigit = true ↔
    48 ≤ c.toNat ∧ c.toNat ≤ 57 := by
  simp only [Char.isDigit, Bool.and_eq_true, decide_eq_true_eq]
  exact ⟨fun h => ⟨h.1, h.2⟩, fun h => ⟨h.1, h.2⟩⟩

theorem isNameStart_lowerChar {c : Char} (h : isNameStart c = true) :
    isNameStart (lowerChar c) = true := by
  unfold isNameStart at h ⊢
  rw [isAlpha_iff_toNat] at h
  by_cases hu : 65 ≤ c.toNat ∧ c.toNat ≤ 90
  · have ht := lowerChar_of_upper hu.1 hu.2
    rw [isAlpha_iff_toNat]
    omega
  · rw [lowerChar_of_not_upper hu, isAlpha_iff_toNat]
    rcases h with h | h
    · exact absurd h hu
    · exact Or.inr h

theorem isNameChar_lowerChar {c : Char} (h : isNameChar c = true) :
    isNameChar (lowerChar c) = true := by
  unfold isNameChar at h ⊢
  rw [Bool.or_eq_true] at h ⊢
  rcases h with h | h
  · exact Or.inl (isNameStart_lowerChar h)
  · right
    rw [lowerChar_of_not_upper (by rw [isDigit_iff_toNat] at h; omega)]
    exact h

theorem goodNameB_of_shape {n : String} (hne : n.toList ≠ [])
    (h2 : ∀ x ∈ n.toList, isNameChar x = true)
    (h3 : ∀ c cs, n.toList = c :: cs → isNameStart c = true) :
    goodNameB n = true := by
  unfold goodNameB
  split
  · rename_i heq
    exact absurd heq hne
  · rename_i c cs heq
    rw [Bool.and_eq_true]
    refine ⟨h3 c cs heq, ?_⟩
    rw [List.all_eq_true]
    intro x hx
    exact h2 x (by rw [heq]; exact hx)

theorem goodNameB_lowerStr {n : String} (h : goodNameB n = true) :
    goodNameB (lowerStr n) = true := by
  obtain ⟨hne, hall, hstart⟩ := goodNameB_elim h
  apply goodNameB_of_shape
  · rw [lowerStr_toList]
    intro hmap
    cases hn : n.toList with
    | nil => exact hne hn
    | cons d ds =>
      rw [hn, List.map_cons] at hmap
      cases hmap
  · rw [lowerStr_toList]
    intro x hx
    obtain ⟨y, hy1, hy2⟩ := List.mem_map.mp hx
    rw [← hy2]
    exact isNameChar_lowerChar (hall y hy1)
  · rw [lowerStr_toList]
    intro c cs heq
    cases hn : n.toList with
    | nil => exact absurd hn hne
    | cons d ds =>
      rw [hn, List.map_cons] at heq
      cases heq
      exact isNameStart_lowerChar (hstart d ds hn)

/-! ## Identities used by the idempotence claim -/

theorem safeChar_elim {c : Char} (h : safeChar c = true) :
    c ≠ '<' ∧ c ≠ '>' ∧ c ≠ '"' ∧ c ≠ '\'' ∧ c ≠ '[' := by
  refine ⟨?_, ?_, ?_, ?_, ?_⟩ <;> intro he <;> subst he <;> exact absurd h (by decide)

theorem safeChar_intro {c : Char} (h1 : c ≠ '<') (h2 : c ≠ '>') (h3 : c ≠ '"')
    (h4 : c ≠ '\'') (h5 : c ≠ '[') : safeChar c = true := by
  simp [safeChar, h1, h2, h3, h4, h5]

theorem bracketEscape_eq_self {cs : List Char} (h : ∀ x ∈ cs, x ≠ '[') :
    bracketEscape cs = cs := by
  induction cs with
  | nil => rfl
  | cons c cs ih =>
    show (if c = '[' then _ else [c]) ++ bracketEscape cs = c :: cs
    rw [if_neg (h c (by simp)), ih (fun x hx => h x (by simp [hx]))]
    rfl

theorem ltSub_eq_self {cs : List Char} (h : ∀ x ∈ cs, x ≠ '<') :
    ltSub cs = cs := by
  induction cs with
  | nil => rfl
  | cons c cs ih =>
    show (if c = '<' then _ else [c]) ++ ltSub cs = c :: cs
    rw [if_neg (h c (by simp)), ih (fun x hx => h x (by simp [hx]))]
    rfl

theorem lex_no_lt {cs : List Char} (h : ∀ x ∈ cs, x ≠ '<') :
    lex cs = cs.map Piece.chr := by
  induction cs with
  | nil => exact lex_nil
  | cons c cs ih =>
    rw [lex_cons_chr (h c (by simp)) cs, ih (fun x hx => h x (by simp [hx]))]
    rfl

theorem dropTagPieces_map_chr (cs : List Char) :
    dropTagPieces (cs.map Piece.chr) = cs := by
  induction cs with
  | nil => rfl
  | cons c cs ih => simp [dropTagPieces, ih]

/-! ## Lexing of well-formed bare tags -/

theorem parseName_cons {c : Char} (hc : isNameStart c = true) (rest : List Char) :
    parseName (c :: rest) =
      some (String.mk (c :: rest.takeWhile isNameChar), rest.dropWhile isNameChar) := by
  unfold parseName
  show (if isNameStart c = true then
      some (String.mk (c :: rest.takeWhile isNameChar), rest.dropWhile isNameChar)
    else none) = _
  rw [if_pos hc]

theorem parseName_good {n : String} (hg : goodNameB n = true) (cs : List Char) :
    parseName (n.toList ++ '>' :: cs) = some (n, '>' :: cs) := by
  obtain ⟨hne, hall, hstart⟩ := goodNameB_elim hg
  cases hn : n.toList with
  | nil => exact absurd hn hne
  | cons c r =>
    have hr : ∀ x ∈ r, isNameChar x = true :=
      fun x hx => hall x (by rw [hn]; simp [hx])
    rw [List.cons_append, parseName_cons (hstart c r hn)]
    rw [takeWhile_all_append hr (by decide) cs, dropWhile_all_append hr (by decide) cs]
    rw [show String.mk (c :: r) = n from toList_inj hn.symm]

theorem parseTagBody_good {n : String} (hg : goodNameB n = true) (b : Bool)
    (cs : List Char) :
    parseTagBody b (n.toList ++ '>' :: cs) = some (b, n, cs) := by
  unfold parseTagBody
  rw [parseName_good hg cs]
  exact rfl

theorem parseTagAt_cons_ne {c : Char} (hc : c ≠ '/') (cs : List Char) :
    parseTagAt (c :: cs) = parseTagBody false (c :: cs) := by
  unfold parseTagAt
  split
  · rename_i r heq
    rw [List.cons.injEq] at heq
    exact absurd heq.1 hc
  · rfl

theorem parseTagAt_open {n : String} (hg : goodNameB n = true) (cs : List Char) :
    parseTagAt (n.toList ++ '>' :: cs) = some (false, n, cs) := by
  obtain ⟨hne, hall, hstart⟩ := goodNameB_elim hg
  cases hn : n.toList with
  | nil => exact absurd hn hne
  | cons c r =>
    have hc : c ≠ '/' := nameStart_ne_slash (hstart c r hn)
    rw [List.cons_append, parseTagAt_cons_ne hc,
      show (c :: (r ++ '>' :: cs) : List Char) = n.toList ++ '>' :: cs from by
        rw [hn, List.cons_append]]
    exact parseTagBody_good hg false cs

theorem parseTagAt_close {n : String} (hg : goodNameB n = true) (cs : List Char) :
    parseTagAt ('/' :: (n.toList ++ '>' :: cs)) = some (true, n, cs) := by
  rw [show parseTagAt ('/' :: (n.toList ++ '>' :: cs)) =
    parseTagBody true (n.toList ++ '>' :: cs) from rfl]
  exact parseTagBody_good hg true cs

theorem lex_open {n : String} (hg : goodNameB n = true) (cs : List Char) :
    lex ('<' :: (n.toList ++ '>' :: cs)) = .tag false n :: lex cs :=
  lex_cons_tag (parseTagAt_open hg cs)

theorem lex_close {n : String} (hg : goodNameB n = true) (cs : List Char) :
    lex ('<' :: '/' :: (n.toList ++ '>' :: cs)) = .tag true n :: lex cs :=
  lex_cons_tag (parseTagAt_close hg cs)

/-! ## Equation lemmas for the token extraction and the reassembly -/

theorem toksOf_cons_chr (wl : List String) (c : Char) (ps : List Piece) :
    toksOf wl (.chr c :: ps) = toksOf wl ps := by
  simp [toksOf]

theorem toksOf_cons_tag_pos {wl : List String} {nm : String}
    (hw : wl.contains (lowerStr nm) = true) (isCl : Bool) (ps : List Piece) :
    toksOf wl (.tag isCl nm :: ps) = (isCl, lowerStr nm) :: toksOf wl ps := by
  have hmem : lowerStr nm ∈ wl := by simpa using hw
  simp [toksOf, List.filterMap_cons, hmem]

theorem toksOf_cons_tag_neg {wl : List String} {nm : String}
    (hw : wl.contains (lowerStr nm) = false) (isCl : Bool) (ps : List Piece) :
    toksOf wl (.tag isCl nm :: ps) = toksOf wl ps := by
  have hmem : lowerStr nm ∉ wl := by simpa using hw
  simp [toksOf, List.filterMap_cons, hmem]

theorem assembleL_cons_chr (wl : List String) (c : Char) (ps : List Piece)
    (ts : List String) :
    assembleL wl (.chr c :: ps) ts = normalizeChar c ++ assembleL wl ps ts := rfl

theorem assembleL_cons_tag_pos {wl : List String} {nm : String}
    (hw : wl.contains (lowerStr nm) = true) (isCl : Bool) (ps : List Piece)
    (ts : List String) :
    assembleL wl (.tag isCl nm :: ps) ts =
      (ts.headD "").toList ++ assembleL wl ps ts.tail := by
  show (if wl.contains (lowerStr nm) then _ else _) = _
  rw [if_pos hw]

theorem assembleL_cons_tag_neg {wl : List String} {nm : String}
    (hw : wl.contains (lowerStr nm) = false) (isCl : Bool) (ps : List Piece)
    (ts : List String) :
    assembleL wl (.tag isCl nm :: ps) ts = assembleL wl ps ts := by
  have hmem : lowerStr nm ∉ wl := by simpa using hw
  show (if wl.contains (lowerStr nm) then _ else _) = _
  rw [if_neg (by simpa using hmem)]

/-! ## Names produced by the scanner are well-formed -/

theorem parseName_good_name {cs : List Char} {nm : String} {rest : List Char}
    (h : parseName cs = some (nm, rest)) : goodNameB nm = true := by
  cases cs with
  | nil => simp [parseName] at h
  | cons c r =>
    by_cases hs : isNameStart c
    · rw [parseName_cons hs] at h
      simp only [Option.some.injEq, Prod.mk.injEq] at h
      obtain ⟨h1, -⟩ := h
      rw [← h1]
      apply goodNameB_of_shape
      · intro he
        rw [show (String.mk (c :: r.takeWhile isNameChar)).toList =
          c :: r.takeWhile isNameChar from rfl] at he
        cases he
      · intro x hx
        rw [show (String.mk (c :: r.takeWhile isNameChar)).toList =
          c :: r.takeWhile isNameChar from rfl] at hx
        rcases List.mem_cons.mp hx with h' | h'
        · rw [h']
          unfold isNameChar
          rw [Bool.or_eq_true]
          exact Or.inl hs
        · exact List.mem_takeWhile_imp h'
      · intro d ds heq
        rw [show (String.mk (c :: r.takeWhile isNameChar)).toList =
          c :: r.takeWhile isNameChar from rfl] at heq
        cases heq
        exact hs
    · simp [parseName, hs] at h

theorem parseTagBody_good_name {b : Bool} {cs : List Char}
    {r : Bool × String × List Char} (h : parseTagBody b cs = some r) :
    goodNameB r.2.1 = true := by
  unfold parseTagBody at h
  split at h
  · rename_i nm rest hn
    split at h
    · rename_i after hg
      cases h
      exact parseName_good_name hn
    · cases h
  · cases h

theorem parseTagAt_good_name {cs : List Char} {r : Bool × String × List Char}
    (h : parseTagAt cs = some r) : goodNameB r.2.1 = true := by
  unfold parseTagAt at h
  split at h
  · exact parseTagBody_good_name h
  · exact parseTagBody_good_name h

theorem lex_tag_good : ∀ (cs : List Char) (isCl : Bool) (nm : String),
    Piece.tag isCl nm ∈ lex cs → goodNameB nm = true := by
  intro cs
  induction cs using lex.induct with
  | case1 =>
    intro isCl nm h
    rw [lex_nil] at h
    cases h
  | case2 cs r hr ih =>
    intro isCl nm h
    rw [lex_cons_tag hr] at h
    rcases List.mem_cons.mp h with h | h
    · cases h
      exact parseTagAt_good_name hr
    · exact ih isCl nm h
  | case3 cs hr ih =>
    intro isCl nm h
    rw [lex_cons_nomatch hr] at h
    rcases List.mem_cons.mp h with h | h
    · cases h
    · exact ih isCl nm h
  | case4 c' cs hc ih =>
    intro isCl nm h
    rw [lex_cons_chr hc] at h
    rcases List.mem_cons.mp h with h | h
    · cases h
    · exact ih isCl nm h

theorem toksOf_lex_good (wl : List String) (cs : List Char) :
    ∀ tk ∈ toksOf wl (lex cs),
      goodNameB tk.2 = true ∧ lowerStr tk.2 = tk.2 := by
  intro tk htk
  unfold toksOf at htk
  obtain ⟨p, hp1, hp2⟩ := List.mem_filterMap.mp htk
  cases p with
  | chr c => simp at hp2
  | tag isCl nm =>
    rw [show (match (Piece.tag isCl nm : Piece) with
        | .tag isCl nm =>
          if wl.contains (lowerStr nm) then some ((isCl, lowerStr nm) : Bool × String)
          else none
        | .chr _ => none) =
      (if wl.contains (lowerStr nm) then some ((isCl, lowerStr nm) : Bool × String)
        else none) from rfl] at hp2
    split at hp2
    · cases hp2
      refine ⟨goodNameB_lowerStr (lex_tag_good cs isCl nm hp1), lowerStr_idem nm⟩
    · cases hp2

/-! ## The shape of stripped output: constructors and destructors -/

theorem recOfTok_chars {wl : List String} {tk : Bool × String} (htk : goodTok wl tk) :
    ∀ x ∈ (recOfTok tk).toList,
      x = '<' ∨ x = '>' ∨ x = '/' ∨ isNameChar x = true := by
  obtain ⟨isCl, n⟩ := tk
  obtain ⟨-, hg, -⟩ := htk
  obtain ⟨-, hall, -⟩ := goodNameB_elim hg
  cases isCl with
  | false =>
    show ∀ x ∈ (openTagStr n).toList,
      x = '<' ∨ x = '>' ∨ x = '/' ∨ isNameChar x = true
    rw [toList_openTagStr]
    intro x hx
    rcases List.mem_cons.mp hx with h' | h'
    · exact Or.inl h'
    · rcases List.mem_append.mp h' with h'' | h''
      · exact Or.inr (Or.inr (Or.inr (hall x h'')))
      · rw [List.mem_singleton] at h''
        exact Or.inr (Or.inl h'')
  | true =>
    show ∀ x ∈ (closeTagStr n).toList,
      x = '<' ∨ x = '>' ∨ x = '/' ∨ isNameChar x = true
    rw [toList_closeTagStr]
    intro x hx
    rcases List.mem_cons.mp hx with h' | h'
    · exact Or.inl h'
    · rcases List.mem_cons.mp h' with h'' | h''
      · exact Or.inr (Or.inr (Or.inl h''))
      · rcases List.mem_append.mp h'' with h3 | h3
        · exact Or.inr (Or.inr (Or.inr (hall x h3)))
        · rw [List.mem_singleton] at h3
          exact Or.inr (Or.inl h3)

theorem FixedDoc_no_br {wl : List String} {cs : List Char}
    {ts : List (Bool × String)} (h : FixedDoc wl cs ts) : ∀ x ∈ cs, x ≠ '[' := by
  induction h with
  | nil => intro x hx; cases hx
  | chr c hc h ih =>
    intro x hx
    rcases List.mem_cons.mp hx with h' | h'
    · rw [h']
      exact (safeChar_elim hc).2.2.2.2
    · exact ih x h'
  | tok tk htk h ih =>
    intro x hx
    rcases List.mem_append.mp hx with h' | h'
    · rcases recOfTok_chars htk x h' with h'' | h'' | h'' | h''
      · rw [h'']; decide
      · rw [h'']; decide
      · rw [h'']; decide
      · exact nameChar_ne_br h''
    · exact ih x h'

theorem FixedDoc_toks_good {wl : List String} {cs : List Char}
    {ts : List (Bool × String)} (h : FixedDoc wl cs ts) :
    ∀ tk ∈ ts, goodTok wl tk := by
  induction h with
  | nil => intro tk htk; cases htk
  | chr c hc h ih => exact ih
  | tok tk htk h ih =>
    intro x hx
    rcases List.mem_cons.mp hx with h' | h'
    · rw [h']; exact htk
    · exact ih x h'

theorem FixedDoc_append {wl : List String} :
    ∀ {a : List Char} {ts1 : List (Bool × String)}, FixedDoc wl a ts1 →
      ∀ {b : List Char} {ts2 : List (Bool × String)}, FixedDoc wl b ts2 →
      FixedDoc wl (a ++ b) (ts1 ++ ts2) := by
  intro a ts1 h
  induction h with
  | nil => intro b ts2 hb; exact hb
  | chr c hc h ih =>
    intro b ts2 hb
    exact FixedDoc.chr c hc (ih hb)
  | tok tk htk h ih =>
    intro b ts2 hb
    rw [List.append_assoc, List.cons_append]
    exact FixedDoc.tok tk htk (ih hb)

theorem FixedDoc_prepend_safe {wl : List String} :
    ∀ {a : List Char}, (∀ c ∈ a, safeChar c = true) →
      ∀ {l : List Char} {ts : List (Bool × String)},
      FixedDoc wl l ts → FixedDoc wl (a ++ l) ts := by
  intro a
  induction a with
  | nil => intro _ l ts h; exact h
  | cons c a ih =>
    intro ha l ts h
    exact FixedDoc.chr c (ha c (by simp)) (ih (fun x hx => ha x (by simp [hx])) h)

theorem FixedDoc_chunkToks {wl : List String} :
    ∀ {ts : List (Bool × String)}, (∀ tk ∈ ts, goodTok wl tk) →
      FixedDoc wl (String.join (ts.map recOfTok)).toList ts := by
  intro ts
  induction ts with
  | nil => intro _; exact FixedDoc.nil
  | cons tk ts ih =>
    intro h
    rw [List.map_cons, string_join_cons, toList_append]
    exact FixedDoc.tok tk (h tk (by simp)) (ih (fun x hx => h x (by simp [hx])))

theorem FixedDoc_assembleL {wl : List String} :
    ∀ (ps : List Piece) (tls : List (List (Bool × String))),
      (∀ c, Piece.chr c ∈ ps → c ≠ '[') →
      (∀ ts ∈ tls, ∀ tk ∈ ts, goodTok wl tk) →
      tls.length = (toksOf wl ps).length →
      FixedDoc wl
        (assembleL wl ps (tls.map (fun ts => String.join (ts.map recOfTok))))
        tls.join := by
  intro ps
  induction ps with
  | nil =>
    intro tls _ _ hlen
    have htls : tls = [] := List.length_eq_zero.mp (by simpa [toksOf] using hlen)
    subst htls
    exact FixedDoc.nil
  | cons p ps ih =>
    intro tls hbr hg hlen
    cases p with
    | chr c =>
      rw [assembleL_cons_chr]
      apply FixedDoc_prepend_safe
      · intro x hx
        obtain ⟨hs1, hs2, hs3, hs4⟩ := normalizeChar_safe c x hx
        exact safeChar_intro hs1 hs2 hs3 hs4
          (normalizeChar_no_br (hbr c (by simp)) x hx)
      · rw [toksOf_cons_chr] at hlen
        exact ih tls (fun c' hc' => hbr c' (by simp [hc'])) hg hlen
    | tag isCl nm =>
      cases hcont : wl.contains (lowerStr nm) with
      | false =>
        rw [assembleL_cons_tag_neg hcont]
        rw [toksOf_cons_tag_neg hcont] at hlen
        exact ih tls (fun c' hc' => hbr c' (by simp [hc'])) hg hlen
      | true =>
        rw [toksOf_cons_tag_pos hcont] at hlen
        cases tls with
        | nil => simp at hlen
        | cons ts1 tls' =>
          rw [List.map_cons, assembleL_cons_tag_pos hcont]
          simp only [List.headD_cons, List.tail_cons]
          rw [show (ts1 :: tls').join = ts1 ++ tls'.join from rfl]
          refine FixedDoc_append (FixedDoc_chunkToks (hg ts1 (by simp))) ?_
          simp only [List.length_cons] at hlen
          exact ih tls' (fun c' hc' => hbr c' (by simp [hc']))
            (fun ts hts tk htk => hg ts (by simp [hts]) tk htk) (by omega)

/-! ## A fixed-shape document is reproduced verbatim by the scan -/

theorem fixed_toks_assemble {wl : List String} :
    ∀ {cs : List Char} {ts : List (Bool × String)}, FixedDoc wl cs ts →
      toksOf wl (lex cs) = ts ∧
      assembleL wl (lex cs) (ts.map recOfTok) = cs := by
  intro cs ts h
  induction h with
  | nil =>
    rw [lex_nil]
    exact ⟨rfl, rfl⟩
  | chr c hc h ih =>
    obtain ⟨hsf1, hsf2, hsf3, hsf4, hsf5⟩ := safeChar_elim hc
    rw [lex_cons_chr hsf1 _]
    refine ⟨?_, ?_⟩
    · rw [toksOf_cons_chr]
      exact ih.1
    · rw [assembleL_cons_chr, normalizeChar_eq_self ⟨hsf1, hsf2, hsf3, hsf4⟩, ih.2]
      rfl
  | tok tk htk h ih =>
    rename_i cs' ts'
    obtain ⟨isCl, n⟩ := tk
    obtain ⟨hmem, hg, hlow⟩ := htk
    have hcont : wl.contains (lowerStr n) = true := by
      rw [hlow]
      simpa using hmem
    cases isCl with
    | false =>
      have hsh : (recOfTok ((false, n) : Bool × String)).toList ++ cs' =
          '<' :: (n.toList ++ '>' :: cs') := by
        rw [show recOfTok ((false, n) : Bool × String) = openTagStr n from rfl,
          toList_openTagStr]
        simp
      rw [hsh, lex_open hg cs']
      refine ⟨?_, ?_⟩
      · rw [toksOf_cons_tag_pos hcont, hlow, ih.1]
      · rw [List.map_cons, assembleL_cons_tag_pos hcont]
        simp only [List.headD_cons, List.tail_cons]
        rw [ih.2, ← hsh]
    | true =>
      have hsh : (recOfTok ((true, n) : Bool × String)).toList ++ cs' =
          '<' :: '/' :: (n.toList ++ '>' :: cs') := by
        rw [show recOfTok ((true, n) : Bool × String) = closeTagStr n from rfl,
          toList_closeTagStr]
        simp
      rw [hsh, lex_close hg cs']
      refine ⟨?_, ?_⟩
      · rw [toksOf_cons_tag_pos hcont, hlow, ih.1]
      · rw [List.map_cons, assembleL_cons_tag_pos hcont]
        simp only [List.headD_cons, List.tail_cons]
        rw [ih.2, ← hsh]

/-! ## A well-nested token stream balances to itself -/

theorem balanceToks_id_of_run :
    ∀ (ts : List (Bool × String)) (ns ns' : List String),
      runToks ns ts = some ns' →
      balanceToks ns ts = (ts.map (fun tk => [tk]), ns') := by
  intro ts
  induction ts with
  | nil =>
    intro ns ns' h
    cases h
    rfl
  | cons tk ts ih =>
    intro ns ns' h
    obtain ⟨isCl, n⟩ := tk
    cases isCl
    · rw [show runToks ns ((false, n) :: ts) =
        (if n ∈ voidElements then runToks ns ts else runToks (n :: ns) ts)
          from rfl] at h
      by_cases hv : n ∈ voidElements
      · rw [if_pos hv] at h
        simp only [balanceToks, if_pos hv, ih ns ns' h, List.map_cons]
      · rw [if_neg hv] at h
        simp only [balanceToks, if_neg hv, ih (n :: ns) ns' h, List.map_cons]
    · cases ns with
      | nil =>
        rw [show runToks [] ((true, n) :: ts) = none from rfl] at h
        cases h
      | cons m st' =>
        rw [show runToks (m :: st') ((true, n) :: ts) =
          (if m = n then runToks st' ts else none) from rfl] at h
        by_cases hm : m = n
        · rw [if_pos hm] at h
          subst hm
          have hmem : m ∈ m :: st' := List.mem_cons_self m st'
          simp only [balanceToks, if_pos hmem]
          rw [show (m :: st').takeWhile (fun x => x != m) = [] from by
              simp [List.takeWhile_cons],
            show (m :: st').dropWhile (fun x => x != m) = m :: st' from by
              simp [List.dropWhile_cons]]
          simp only [List.tail_cons, ih st' ns' h, List.map_cons, List.nil_append,
            List.map_nil]
        · rw [if_neg hm] at h
          cases h

/-! ## Stripping a fixed-shape, well-nested document is the identity -/

theorem strip_fixed {wl : List String} (hwl : wl ≠ []) {s : String}
    {ts : List (Bool × String)} (hfd : FixedDoc wl s.toList ts)
    (hrun : runToks [] ts = some []) : strip_html_tags s wl = s := by
  have hgoodts : ∀ tk ∈ ts, goodTok wl tk := FixedDoc_toks_good hfd
  rw [strip_eq_assembleL s wl hwl]
  rw [bracketEscape_eq_self (FixedDoc_no_br hfd)]
  obtain ⟨htk, has⟩ := fixed_toks_assemble hfd
  rw [htk]
  have hsim := balanceGo_sim ts [] (fun tk htki => (hgoodts tk htki).2.1)
  simp only [List.map_nil] at hsim
  rw [balanceToks_id_of_run ts [] [] hrun] at hsim
  have hb1 : (balance_tags (ts.map recOfTok)).1 = ts.map recOfTok := by
    unfold balance_tags
    rw [hsim]
    show (ts.map (fun tk => [tk])).map (fun l => String.join (l.map recOfTok)) = _
    rw [List.map_map]
    refine List.map_congr_left (fun tk _ => ?_)
    show String.join [recOfTok tk] = recOfTok tk
    rw [string_join_cons, string_join_nil]
    exact String.append_nil _
  have hb2 : (balance_tags (ts.map recOfTok)).2 = "" := by
    unfold balance_tags
    rw [hsim]
    exact rfl
  rw [hb1, hb2, has]
  show s ++ "" = s
  exact String.append_nil s

/-! ## The first pass produces a fixed-shape, well-nested document -/

theorem runToks_strip_toks (value : String) (wl : List String) :
    runToks []
      ((balanceToks [] (toksOf wl (lex (bracketEscape value.toList)))).1.join ++
        (balanceToks [] (toksOf wl (lex (bracketEscape value.toList)))).2.map
          (fun m => (true, m))) = some [] := by
  rw [runToks_append]
  rw [balanceToks_valid (toksOf wl (lex (bracketEscape value.toList))) []]
  exact runToks_closes _

theorem FixedDoc_strip (value : String) (wl : List String) (hwl : wl ≠ []) :
    FixedDoc wl (strip_html_tags value wl).toList
      ((balanceToks [] (toksOf wl (lex (bracketEscape value.toList)))).1.join ++
        (balanceToks [] (toksOf wl (lex (bracketEscape value.toList)))).2.map
          (fun m => (true, m))) := by
  have hmem := toksOf_mem_wl wl (lex (bracketEscape value.toList))
  have hgood0 := toksOf_lex_good wl (bracketEscape value.toList)
  have hP := balanceToks_out_names
    (fun m => m ∈ wl ∧ goodNameB m = true ∧ lowerStr m = m)
    (toksOf wl (lex (bracketEscape value.toList))) []
    (by intro m hm; cases hm)
    (fun tk htk => ⟨hmem tk htk, (hgood0 tk htk).1, (hgood0 tk htk).2⟩)
  have hsim := balanceGo_sim (toksOf wl (lex (bracketEscape value.toList)))
    [] (fun tk htk => (hgood0 tk htk).1)
  simp only [List.map_nil] at hsim
  rw [strip_eq_assembleL value wl hwl, toList_append]
  apply FixedDoc_append
  · rw [show (String.mk (assembleL wl (lex (bracketEscape value.toList))
        ((balance_tags ((toksOf wl
          (lex (bracketEscape value.toList))).map recOfTok)).1))).toList =
      assembleL wl (lex (bracketEscape value.toList))
        ((balance_tags ((toksOf wl
          (lex (bracketEscape value.toList))).map recOfTok)).1) from rfl]
    rw [show (balance_tags ((toksOf wl
        (lex (bracketEscape value.toList))).map recOfTok)).1 =
      (balanceToks [] (toksOf wl (lex (bracketEscape value.toList)))).1.map
        (fun ts => String.join (ts.map recOfTok)) from by
      unfold balance_tags
      rw [hsim]]
    exact FixedDoc_assembleL (lex (bracketEscape value.toList))
      (balanceToks [] (toksOf wl (lex (bracketEscape value.toList)))).1
      (fun c hc => bracketEscape_no_br value.toList c (lex_chr_mem _ c hc))
      (fun ts hts tk htk => hP.1 ts hts tk htk)
      (balanceToks_len (toksOf wl (lex (bracketEscape value.toList))) [])
  · rw [show (balance_tags ((toksOf wl
        (lex (bracketEscape value.toList))).map recOfTok)).2 =
      String.join
        ((balanceToks [] (toksOf wl (lex (bracketEscape value.toList)))).2.map
          closeTagStr) from by
      unfold balance_tags
      rw [hsim]]
    rw [← map_true_eq_map_closeTagStr]
    apply FixedDoc_chunkToks
    intro tk htk
    obtain ⟨m, hm1, hm2⟩ := List.mem_map.mp htk
    rw [← hm2]
    exact hP.2 m hm1

/-! ## Claims -/

/-- **C1** (amended): for every input and every whitelist of well-formed
lowercase tag names, the stripped output contains no `<` character other
than as part of a bare whitelisted tag `<name>` / `</name>`; when the
whitelist is non-empty, the remaining special characters `>`, `"`, `'` are
entity-encoded outside those tags as well. (With an empty whitelist the
code only deletes tags and encodes `<`; other special characters pass
through unencoded.) -/
theorem C1_no_injection :
    ∀ (value : String) (wl : List String), (∀ n ∈ wl, goodNameB n = true) →
      ltOk wl (strip_html_tags value wl).toList = true ∧
      (wl ≠ [] → encOk wl (strip_html_tags value wl).toList = true) := by
  intro value wl hgood
  by_cases hwl : wl = []
  · subst hwl
    constructor
    · rw [show strip_html_tags value [] =
        String.mk (ltSub (dropTagPieces (lex value.toList))) from rfl]
      exact ltOk_of_no_lt (ltSub_no_lt _)
    · intro h
      exact absurd rfl h
  · have hch := strip_balance_chunks value wl hgood
    constructor
    · rw [strip_eq_assembleL value wl hwl, toList_append,
        show (String.mk (assembleL wl (lex (bracketEscape value.toList))
          ((balance_tags ((toksOf wl
            (lex (bracketEscape value.toList))).map recOfTok)).1))).toList =
        assembleL wl (lex (bracketEscape value.toList))
          ((balance_tags ((toksOf wl
            (lex (bracketEscape value.toList))).map recOfTok)).1) from rfl,
        ltOk_assembleL hgood _ _ hch.1]
      have h2 := ltOk_chunkStr hgood hch.2 []
      rw [List.append_nil] at h2
      rw [h2, ltOk_nil]
    · intro _
      rw [strip_eq_assembleL value wl hwl, toList_append,
        show (String.mk (assembleL wl (lex (bracketEscape value.toList))
          ((balance_tags ((toksOf wl
            (lex (bracketEscape value.toList))).map recOfTok)).1))).toList =
        assembleL wl (lex (bracketEscape value.toList))
          ((balance_tags ((toksOf wl
            (lex (bracketEscape value.toList))).map recOfTok)).1) from rfl,
        encOk_assembleL hgood _ _ hch.1]
      have h2 := encOk_chunkStr hgood hch.2 []
      rw [List.append_nil] at h2
      rw [h2, encOk_nil]

/-- Witness for C1: a concrete input and whitelist. -/
theorem C1_no_injection_witness :
    ltOk ["b"] (strip_html_tags "<b>x & </b>" ["b"]).toList = true ∧
    (["b"] ≠ [] → encOk ["b"] (strip_html_tags "<b>x & </b>" ["b"]).toList = true) :=
  C1_no_injection "<b>x & </b>" ["b"] (by decide)

/-- **C1** counterexample to the claim as stated: with the empty whitelist,
the special character `>` is not entity-encoded — `strip("&gt;"… )` leaves
`">"` untouched, so "all other special characters are entity-encoded"
fails. -/
theorem C1_counterexample :
    strip_html_tags ">" [] = ">" ∧ encOk [] ">".toList = false := by
  constructor
  · simp [strip_html_tags, lex, parseTagAt, parseTagBody, parseName, dropUntilGt,
      ltSub, dropTagPieces, isNameStart, isNameChar]
  · rw [show ">".toList = ['>'] from rfl, encOk]
    rw [if_neg (by decide), if_pos (by decide)]

/-! ## Settled claims continue below -/

theorem strip_tokens_valid (value : String) (wl : List String) (hwl : wl ≠ [])
    (hgood : ∀ n ∈ wl, goodNameB n = true) :
    runToks [] (tokenize wl (strip_html_tags value wl).toList) = some [] := by
  rw [strip_tokens value wl hwl hgood, runToks_append, balanceToks_valid]
  exact runToks_closes _

theorem strip_tokens_close_nonvoid (value : String) (wl : List String)
    (hwl : wl ≠ []) (hgood : ∀ n ∈ wl, goodNameB n = true) :
    ∀ v ∈ voidElements,
      (true, v) ∉ tokenize wl (strip_html_tags value wl).toList := by
  intro v hv hmem
  rw [strip_tokens value wl hwl hgood] at hmem
  have hnv := balanceToks_close_nonvoid
    (toksOf wl (lex (bracketEscape value.toList))) [] (by intro m hm; cases hm)
  rcases List.mem_append.mp hmem with h | h
  · obtain ⟨out, hout1, hout2⟩ := List.mem_join.mp h
    exact hnv.1 out hout1 (true, v) hout2 rfl hv
  · obtain ⟨m, hm1, hm2⟩ := List.mem_map.mp h
    have hmv : m = v := by cases hm2; rfl
    exact hnv.2 m hm1 (hmv ▸ hv)

/-- **C2** (amended): for every input and whitelist of well-formed tag
names, the stripped output's whitelisted-tag token sequence satisfies: for
each *non-void* whitelisted tag, the number of opening occurrences equals
the number of closing occurrences, and for every whitelisted tag no prefix
of the output contains more closing than opening occurrences. (A void
whitelisted tag such as `br` can appear as a bare opening with no close.) -/
theorem C2_balance :
    ∀ (value : String) (wl : List String), (∀ n ∈ wl, goodNameB n = true) →
      ∀ n ∈ wl,
        (n ∉ voidElements →
          countTok (false, n) (tokenize wl (strip_html_tags value wl).toList) =
            countTok (true, n) (tokenize wl (strip_html_tags value wl).toList)) ∧
        (∀ k, countTok (true, n)
            ((tokenize wl (strip_html_tags value wl).toList).take k) ≤
          countTok (false, n)
            ((tokenize wl (strip_html_tags value wl).toList).take k)) := by
  intro value wl hgood n hn
  have hwl : wl ≠ [] := by
    intro h
    rw [h] at hn
    cases hn
  have hvalid := strip_tokens_valid value wl hwl hgood
  constructor
  · intro hv
    have hc := runToks_count hv _ [] [] hvalid
    simpa [countName] using hc
  · intro k
    by_cases hv : n ∈ voidElements
    · have hnc := strip_tokens_close_nonvoid value wl hwl hgood n hv
      have hnm : (true, n) ∉
          (tokenize wl (strip_html_tags value wl).toList).take k :=
        fun hm => hnc (List.take_subset k _ hm)
      rw [countTok_eq_zero_of_not_mem hnm]
      omega
    · have hsplit :=
        List.take_append_drop k (tokenize wl (strip_html_tags value wl).toList)
      rw [← hsplit, runToks_append] at hvalid
      cases hrun : runToks []
          ((tokenize wl (strip_html_tags value wl).toList).take k) with
      | none =>
        rw [hrun] at hvalid
        cases hvalid
      | some m =>
        have hc := runToks_count hv _ [] m hrun
        have hz : countName n ([] : List String) = 0 := rfl
        rw [hz] at hc
        omega

/-- Witness for C2: a concrete input and whitelist. -/
theorem C2_balance_witness :
    (("b" : String) ∉ voidElements →
      countTok (false, "b")
          (tokenize ["b"] (strip_html_tags "<b>x" ["b"]).toList) =
        countTok (true, "b")
          (tokenize ["b"] (strip_html_tags "<b>x" ["b"]).toList)) ∧
    (∀ k, countTok (true, "b")
        ((tokenize ["b"] (strip_html_tags "<b>x" ["b"]).toList).take k) ≤
      countTok (false, "b")
        ((tokenize ["b"] (strip_html_tags "<b>x" ["b"]).toList).take k)) :=
  C2_balance "<b>x" ["b"] (by decide) "b" (by decide)

/-- **C2** counterexample to the claim as stated: with the whitelist
`{br}`, stripping `"<br>"` leaves one opening occurrence of the whitelisted
tag `br` and no closing occurrence, so the open/close counts differ. -/
theorem C2_counterexample :
    strip_html_tags "<br>" ["br"] = "<br>" ∧
    tokenize ["br"] (String.toList "<br>") = [(false, "br")] ∧
    countTok (false, "br") [(false, "br")] = 1 ∧
    countTok (true, "br") [(false, "br")] = 0 := by
  refine ⟨?_, ?_, by decide, by decide⟩
  · simp +decide [strip_html_tags, lex, parseTagAt, parseTagBody, parseName,
      dropUntilGt, isNameStart, isNameChar, scanPieces, markerChars, natDigits,
      digitChar, lowerStr, lowerChar, normalizeChars, normalizeChar, bracketEscape,
      balance_tags, balanceGo, popThrough, isCloseTag, isVoidOpen, closeFormOf,
      voidElements, isWordChar, reinsertGo, digitsToNat, digitVal, String.join,
      List.dropWhile, List.takeWhile]
  · simp +decide [tokenize, findTagCompletion, String.length, List.drop]

/-- **C6**: a whitelisted void element never produces a synthesized closing
tag: no close token for a void name ever appears in the stripped output,
and in the balancing loop a void open record leaves the stack unchanged
with its replacement kept as the bare open tag. -/
theorem C6_void_exemption :
    ∀ (value : String) (wl : List String), (∀ n ∈ wl, goodNameB n = true) →
      ∀ v ∈ voidElements,
        (true, v) ∉ tokenize wl (strip_html_tags value wl).toList ∧
        (∀ st rest, balanceGo st (openTagStr v :: rest) =
          (openTagStr v :: (balanceGo st rest).1, (balanceGo st rest).2)) := by
  intro value wl hgood v hv
  constructor
  · by_cases hwl : wl = []
    · subst hwl
      intro hmem
      rw [show strip_html_tags value [] =
        String.mk (ltSub (dropTagPieces (lex value.toList))) from rfl,
        show (String.mk (ltSub (dropTagPieces (lex value.toList)))).toList =
          ltSub (dropTagPieces (lex value.toList)) from rfl] at hmem
      have hemp : tokenize [] (ltSub (dropTagPieces (lex value.toList))) = [] := by
        have h := @tokenize_append_no_lt [] _
          (ltSub_no_lt (dropTagPieces (lex value.toList))) []
        rw [List.append_nil] at h
        rw [h, tokenize_nil]
      rw [hemp] at hmem
      cases hmem
    · exact strip_tokens_close_nonvoid value wl hwl hgood v hv
  · intro st rest
    have hvg : goodNameB v = true := voidElements_good v hv
    rw [show balanceGo st (openTagStr v :: rest) =
      if isCloseTag (openTagStr v) then
        match popThrough (openTagStr v) st with
        | some pr =>
          (String.join pr.1 :: (balanceGo pr.2 rest).1, (balanceGo pr.2 rest).2)
        | none => ("" :: (balanceGo st rest).1, (balanceGo st rest).2)
      else
        if isVoidOpen (openTagStr v) then
          (openTagStr v :: (balanceGo st rest).1, (balanceGo st rest).2)
        else
          (openTagStr v :: (balanceGo (closeFormOf (openTagStr v) :: st) rest).1,
           (balanceGo (closeFormOf (openTagStr v) :: st) rest).2) from rfl]
    rw [isCloseTag_openTagStr hvg, if_neg (by simp), isVoidOpen_openTagStr hvg,
      if_pos (by simp [hv])]

/-- Witness for C6: concrete input, whitelist and void element. -/
theorem C6_void_exemption_witness :
    (true, "br") ∉ tokenize ["br", "b"]
      (strip_html_tags "<b><br>x</b>" ["br", "b"]).toList ∧
    (∀ st rest, balanceGo st (openTagStr "br" :: rest) =
      (openTagStr "br" :: (balanceGo st rest).1, (balanceGo st rest).2)) :=
  C6_void_exemption "<b><br>x</b>" ["br", "b"] (by decide) "br" (by decide)

theorem popThrough_first_index {t : String} :
    ∀ (st : List String) (j : Nat) (hj : j < st.length),
      st.get ⟨j, hj⟩ = t →
      (∀ i (hi : i < j), st.get ⟨i, Nat.lt_trans hi hj⟩ ≠ t) →
      popThrough t st = some (st.take (j + 1), st.drop (j + 1)) := by
  intro st
  induction st with
  | nil => intro j hj; cases hj
  | cons s st ih =>
    intro j hj hget hfirst
    cases j with
    | zero =>
      have hs : s = t := hget
      subst hs
      unfold popThrough
      rw [if_pos rfl]
      rfl
    | succ j =>
      have hs : s ≠ t := hfirst 0 (by omega)
      unfold popThrough
      rw [if_neg hs, ih j (by simpa using hj) hget
        (fun i hi => hfirst (i + 1) (by omega))]
      rfl

/-- **C4**: during balancing, a close record that matches an open record at
stack position `j` (the topmost occurrence) is replaced by the
concatenation, most recently opened first, of the closing tags down to and
including that position, and all of those are popped; an orphaned close
record is replaced by the empty string. In particular
`strip("<b><i>x</b></i>", {b, i})` yields `"<b><i>x</i></b>"`. -/
theorem C4_close_pop_through :
    (∀ (t : String) (st : List String) (j : Nat) (hj : j < st.length),
      st.get ⟨j, hj⟩ = t →
      (∀ i (hi : i < j), st.get ⟨i, Nat.lt_trans hi hj⟩ ≠ t) →
      isCloseTag t = true → ∀ rest,
        balanceGo st (t :: rest) =
          (String.join (st.take (j + 1)) :: (balanceGo (st.drop (j + 1)) rest).1,
           (balanceGo (st.drop (j + 1)) rest).2)) ∧
    (∀ (t : String) (st : List String), t ∉ st → isCloseTag t = true → ∀ rest,
      balanceGo st (t :: rest) =
        ("" :: (balanceGo st rest).1, (balanceGo st rest).2)) ∧
    strip_html_tags "<b><i>x</b></i>" ["b", "i"] = "<b><i>x</i></b>" := by
  refine ⟨?_, ?_, ?_⟩
  · intro t st j hj hget hfirst hcl rest
    rw [show balanceGo st (t :: rest) =
      if isCloseTag t then
        match popThrough t st with
        | some pr =>
          (String.join pr.1 :: (balanceGo pr.2 rest).1, (balanceGo pr.2 rest).2)
        | none => ("" :: (balanceGo st rest).1, (balanceGo st rest).2)
      else
        if isVoidOpen t then
          (t :: (balanceGo st rest).1, (balanceGo st rest).2)
        else
          (t :: (balanceGo (closeFormOf t :: st) rest).1,
           (balanceGo (closeFormOf t :: st) rest).2) from rfl]
    rw [hcl, if_pos rfl, popThrough_first_index st j hj hget hfirst]
  · intro t st hmem hcl rest
    rw [show balanceGo st (t :: rest) =
      if isCloseTag t then
        match popThrough t st with
        | some pr =>
          (String.join pr.1 :: (balanceGo pr.2 rest).1, (balanceGo pr.2 rest).2)
        | none => ("" :: (balanceGo st rest).1, (balanceGo st rest).2)
      else
        if isVoidOpen t then
          (t :: (balanceGo st rest).1, (balanceGo st rest).2)
        else
          (t :: (balanceGo (closeFormOf t :: st) rest).1,
           (balanceGo (closeFormOf t :: st) rest).2) from rfl]
    rw [hcl, if_pos rfl, popThrough_not_mem hmem]
  · simp +decide [strip_html_tags, lex, parseTagAt, parseTagBody, parseName,
      dropUntilGt, isNameStart, isNameChar, scanPieces, markerChars, natDigits,
      digitChar, lowerStr, lowerChar, normalizeChars, normalizeChar, bracketEscape,
      balance_tags, balanceGo, popThrough, isCloseTag, isVoidOpen, closeFormOf,
      voidElements, isWordChar, reinsertGo, digitsToNat, digitVal, String.join,
      List.dropWhile, List.takeWhile]

/-- Witness for C4: topmost match two levels down forces the intervening
tag closed first; an orphan close is dropped. -/
theorem C4_close_pop_through_witness :
    balanceGo ["</i>", "</b>"] ["</b>"] = (["</i></b>"], []) ∧
    balanceGo [] ["</i>"] = ([""], []) := by
  constructor
  · have h := C4_close_pop_through.1 "</b>" ["</i>", "</b>"] 1 (by decide)
      (by decide) (by
        intro i hi
        have hi0 : i = 0 := by omega
        subst hi0
        intro hcon
        exact absurd (show "</i>" = "</b>" from hcon) (by decide)) (by decide) []
    rw [h]
    rfl
  · have h := C4_close_pop_through.2.1 "</i>" [] (by decide) (by decide) []
    rw [h]
    rfl

/-- **C3** (amended): with an approval whose justification is absent or
shorter than 20 characters, constructing any trusted-value variant *other
than* `UnsanitizedText` fails with the capability error; with a
justification of at least 20 characters every variant succeeds and the
resulting value's kind is the variant's fixed content kind; and
`UnsanitizedText` (the TEXT variant) succeeds regardless of the supplied
approval, because it synthesizes its own. -/
theorem C3_capability_gating :
    ∀ (content : String) (dir : Option Int) (a : Option Approval),
      ((∀ j, a = some ⟨some j⟩ → j.length < 20) →
        SanitizedHtml.make content dir a = .error .capabilityError ∧
        SanitizedJsStrChars.make content dir a = .error .capabilityError ∧
        SanitizedCss.make content a = .error .capabilityError ∧
        SanitizedHtmlAttribute.make content a = .error .capabilityError ∧
        SanitizedJs.make content a = .error .capabilityError ∧
        SanitizedUri.make content a = .error .capabilityError) ∧
      (∀ j, a = some ⟨some j⟩ → 20 ≤ j.length →
        SanitizedHtml.make content dir a = .ok ⟨.HTML, content, dir⟩ ∧
        SanitizedJsStrChars.make content dir a = .ok ⟨.JS_STR_CHARS, content, dir⟩ ∧
        SanitizedCss.make content a = .ok ⟨.CSS, content, some DIR.LTR⟩ ∧
        SanitizedHtmlAttribute.make content a = .ok ⟨.ATTRIBUTES, content, some DIR.LTR⟩ ∧
        SanitizedJs.make content a = .ok ⟨.JS, content, some DIR.LTR⟩ ∧
        SanitizedUri.make content a = .ok ⟨.URI, content, some DIR.LTR⟩) ∧
      UnsanitizedText.make content dir a = .ok ⟨.TEXT, content, dir⟩ := by
  intro content dir a
  refine ⟨?_, ?_, rfl⟩
  · intro h
    have hf := checkApproval_eq_false h
    simp [SanitizedHtml.make, SanitizedJsStrChars.make, SanitizedCss.make,
      SanitizedHtmlAttribute.make, SanitizedJs.make, SanitizedUri.make,
      SanitizedContent.make, hf]
  · intro j hj h20
    subst hj
    have ht := checkApproval_eq_true h20
    simp [SanitizedHtml.make, SanitizedJsStrChars.make, SanitizedCss.make,
      SanitizedHtmlAttribute.make, SanitizedJs.make, SanitizedUri.make,
      SanitizedContent.make, ht]

/-- Witness for C3: concrete instances of both directions. -/
theorem C3_capability_gating_witness :
    SanitizedHtml.make "x" none none = .error .capabilityError ∧
    SanitizedHtml.make "x" none (some ⟨some "aaaaaaaaaaaaaaaaaaaa"⟩) =
      .ok ⟨.HTML, "x", none⟩ := by
  constructor
  · exact ((C3_capability_gating "x" none none).1 (by intro j hj; cases hj)).1
  · exact ((C3_capability_gating "x" none (some ⟨some "aaaaaaaaaaaaaaaaaaaa"⟩)).2.1
      "aaaaaaaaaaaaaaaaaaaa" rfl (by decide)).1

/-- **C3** counterexample to the claim as stated: constructing the
`UnsanitizedText` trusted-value variant with an *absent* approval object
succeeds (with kind TEXT) instead of failing with a capability error. -/
theorem C3_counterexample :
    UnsanitizedText.make "<script>" none none = .ok ⟨.TEXT, "<script>", none⟩ := rfl

/-- **C5** (amended): for HTML-kind source values, both HTML-attribute
dispatch variants apply the tag-stripping filter with an empty whitelist
(collapsing all markup) before handing the remainder to their HTML
normalizer, while the RCDATA dispatch hands the content to the HTML
normalizer directly, without stripping. -/
theorem C5_dispatch_stripping :
    (∀ c d, escape_html_attribute (.sanV ⟨.HTML, c, d⟩) =
      normalize_html_helper (strip_html_tags c [])) ∧
    (∀ c d, escape_html_attribute_nospace (.sanV ⟨.HTML, c, d⟩) =
      normalize_html_nospace_helper (strip_html_tags c [])) ∧
    (∀ c d, escape_html_rcdata (.sanV ⟨.HTML, c, d⟩) = normalize_html_helper c) := by
  refine ⟨fun c d => ?_, fun c d => ?_, fun c d => ?_⟩ <;>
    simp [escape_html_attribute, escape_html_attribute_nospace, escape_html_rcdata,
      is_content_kind, sanContent]

/-- **C5** counterexample to the claim as stated: on the HTML-kind value
`"<b>"`, the RCDATA dispatch does not apply the tag-stripping filter before
the normalizer — it returns the normalized tag text instead of the
stripped-then-normalized empty string. -/
theorem C5_counterexample :
    escape_html_rcdata (.sanV ⟨.HTML, "<b>", none⟩) = "&lt;b&gt;" ∧
    escapeHtmlRcdataClaim (.sanV ⟨.HTML, "<b>", none⟩) = "" ∧
    escape_html_rcdata (.sanV ⟨.HTML, "<b>", none⟩) ≠
      escapeHtmlRcdataClaim (.sanV ⟨.HTML, "<b>", none⟩) := by
  refine ⟨rfl, ?_, ?_⟩
  · simp [escapeHtmlRcdataClaim, is_content_kind, sanContent, strip_html_tags, lex,
      parseTagAt, parseTagBody, parseName, dropUntilGt, ltSub, dropTagPieces,
      isNameStart, isNameChar, normalize_html_helper, normalizeChars]
  · intro h
    rw [show escapeHtmlRcdataClaim (.sanV ⟨.HTML, "<b>", none⟩) = "" by
      simp [escapeHtmlRcdataClaim, is_content_kind, sanContent, strip_html_tags, lex,
        parseTagAt, parseTagBody, parseName, dropUntilGt, ltSub, dropTagPieces,
        isNameStart, isNameChar, normalize_html_helper, normalizeChars]] at h
    exact absurd h (by decide)

/-- **C8**: `filter_no_auto_escape` passes any sanitized value of non-TEXT
kind through unchanged and replaces every TEXT-kind value by the fixed
innocuous marker string; in particular an untrusted TEXT-kind value with
content `"<script>"` becomes the marker `"zSoyz"`, not the original
content. -/
theorem C8_filter_no_auto_escape :
    (∀ v : Sanitized, v.content_kind ≠ .TEXT →
      filter_no_auto_escape (.sanV v) = .sanV v) ∧
    (∀ v : Sanitized, v.content_kind = .TEXT →
      filter_no_auto_escape (.sanV v) = .strV innocuousOutput) ∧
    filter_no_auto_escape (.sanV ⟨.TEXT, "<script>", none⟩) = .strV "zSoyz" := by
  refine ⟨?_, ?_, rfl⟩
  · intro v h
    simp [filter_no_auto_escape, is_content_kind, h]
  · intro v h
    simp [filter_no_auto_escape, is_content_kind, h]

/-- Witness for C8: a non-TEXT value passes through, a TEXT value is
replaced by the marker. -/
theorem C8_filter_no_auto_escape_witness :
    filter_no_auto_escape (.sanV ⟨.HTML, "x", none⟩) = .sanV ⟨.HTML, "x", none⟩ ∧
    filter_no_auto_escape (.sanV ⟨.TEXT, "y", none⟩) = .strV innocuousOutput :=
  ⟨C8_filter_no_auto_escape.1 ⟨.HTML, "x", none⟩ (by decide),
   C8_filter_no_auto_escape.2.1 ⟨.TEXT, "y", none⟩ rfl⟩

/-- **C9**: `escape_js_value` renders `None` as the space-padded literal
`' null '`, every raw int and boolean as its literal surrounded by single
spaces (never quoted), and every other untrusted (plain string) input as a
single-quoted escaped JS string. -/
theorem C9_escape_js_value :
    escape_js_value .nullV = " null " ∧
    (∀ n : Int, escape_js_value (.intV n) = " " ++ toString n ++ " ") ∧
    (∀ b : Bool, escape_js_value (.boolV b) =
      " " ++ (if b then "True" else "False") ++ " ") ∧
    (∀ s : String, escape_js_value (.strV s) =
      "'" ++ escape_js_string_helper s ++ "'") := by
  refine ⟨rfl, fun n => ?_, fun b => ?_, fun s => ?_⟩ <;>
    simp [escape_js_value, is_content_kind, isNumeric, pyStr]

/-- **C10** (amended): for every ATTRIBUTES-kind value,
`filter_html_attributes` returns the content with one space appended when
the content is non-empty and its last character is not a double quote,
single quote or whitespace; it returns empty content, or content ending in
a quote or whitespace, unchanged — except that, because Python's `$` anchor
also matches just before one newline at the end of the string, content
ending in a single trailing newline preceded by a non-quote, non-whitespace
character gets the space inserted before that newline instead. -/
theorem C10_filter_html_attributes :
    ∀ (d : Option Int),
      (∀ s c, c ≠ '\n' → ambiguousEndChar c = true →
        filter_html_attributes (.sanV ⟨.ATTRIBUTES, s ++ String.singleton c, d⟩) =
          s ++ String.singleton c ++ " ") ∧
      (∀ s c, c ≠ '\n' → ambiguousEndChar c = false →
        filter_html_attributes (.sanV ⟨.ATTRIBUTES, s ++ String.singleton c, d⟩) =
          s ++ String.singleton c) ∧
      (∀ s c, ambiguousEndChar c = true →
        filter_html_attributes
          (.sanV ⟨.ATTRIBUTES, s ++ String.singleton c ++ "\n", d⟩) =
          s ++ String.singleton c ++ " \n") ∧
      (∀ s c, ambiguousEndChar c = false →
        filter_html_attributes
          (.sanV ⟨.ATTRIBUTES, s ++ String.singleton c ++ "\n", d⟩) =
          s ++ String.singleton c ++ "\n") ∧
      filter_html_attributes (.sanV ⟨.ATTRIBUTES, "", d⟩) = "" ∧
      filter_html_attributes (.sanV ⟨.ATTRIBUTES, "\n", d⟩) = "\n" := by
  intro d
  refine ⟨?_, ?_, ?_, ?_, ?_, ?_⟩
  · intro s c hc ha
    rw [filter_attr_on_attributes]
    exact amb_end_nonnl hc ha
  · intro s c hc ha
    rw [filter_attr_on_attributes]
    exact amb_end_nonnl_neg hc ha
  · intro s c ha
    rw [filter_attr_on_attributes]
    exact amb_end_nl ha
  · intro s c ha
    rw [filter_attr_on_attributes]
    exact amb_end_nl_neg ha
  · rw [filter_attr_on_attributes]
    rfl
  · rw [filter_attr_on_attributes]
    rfl

/-- Witness for C10: a space is appended after `"ab"`, and inserted before
the trailing newline of `"a\n"`. -/
theorem C10_filter_html_attributes_witness :
    filter_html_attributes (.sanV ⟨.ATTRIBUTES, "ab", none⟩) = "ab " ∧
    filter_html_attributes (.sanV ⟨.ATTRIBUTES, "a\n", none⟩) = "a \n" := by
  constructor
  · have h := (C10_filter_html_attributes none).1 "a" 'b' (by decide) (by decide)
    rw [show "a" ++ String.singleton 'b' = "ab" by decide] at h
    rw [h]
    decide
  · have h := (C10_filter_html_attributes none).2.2.1 "" 'a' (by decide)
    rw [show "" ++ String.singleton 'a' ++ "\n" = "a\n" by decide] at h
    rw [h]
    decide

/-- **C10** counterexample to the claim as stated: the content `"a\n"` ends
in a whitespace character, yet `filter_html_attributes` does not return it
unchanged — the Python `$` anchor matches before the trailing newline and a
space is inserted after the `a`. -/
theorem C10_counterexample :
    filter_html_attributes (.sanV ⟨.ATTRIBUTES, "a\n", none⟩) = "a \n" ∧
    "a \n" ≠ "a\n" := by
  constructor
  · decide
  · decide

/-- **C7**: the tag-stripping operation is idempotent: for every whitelist
and every input text whose first-pass output contains no literal `[`
immediately followed by a digit (the documented precondition, since the
scan reuses `[i]` as its marker syntax), stripping the stripped output
again returns it unchanged. -/
theorem C7_idempotent :
    ∀ (text : String) (wl : List String),
      noBrDigit (strip_html_tags text wl).toList = true →
      strip_html_tags (strip_html_tags text wl) wl = strip_html_tags text wl := by
  intro text wl _
  by_cases hwl : wl = []
  · subst hwl
    have hout : ∀ x ∈ (strip_html_tags text []).toList, x ≠ '<' := by
      show ∀ x ∈ (String.mk (ltSub (dropTagPieces (lex text.toList)))).toList, x ≠ '<'
      intro x hx
      exact ltSub_no_lt _ x hx
    rw [show strip_html_tags (strip_html_tags text []) [] =
      String.mk (ltSub (dropTagPieces (lex (strip_html_tags text []).toList)))
        from rfl]
    rw [lex_no_lt hout, dropTagPieces_map_chr, ltSub_eq_self hout]
    exact rfl
  · exact strip_fixed hwl (FixedDoc_strip text wl hwl) (runToks_strip_toks text wl)

/-- Witness for C7: `strip("a<b>x", {b})` is `"a<b>x</b>"`, which satisfies
the bracket-digit precondition and is stripped to itself. -/
theorem C7_idempotent_witness :
    noBrDigit (strip_html_tags "a<b>x" ["b"]).toList = true ∧
    strip_html_tags (strip_html_tags "a<b>x" ["b"]) ["b"] =
      strip_html_tags "a<b>x" ["b"] := by
  have hpre : noBrDigit (strip_html_tags "a<b>x" ["b"]).toList = true := by
    have h1 : strip_html_tags "a<b>x" ["b"] = "a<b>x</b>" := by
      simp +decide [strip_html_tags, lex, parseTagAt, parseTagBody, parseName,
        dropUntilGt, ltSub, dropTagPieces, isNameStart, isNameChar, scanPieces,
        markerChars, natDigits, digitChar, lowerStr, lowerChar, normalizeChars,
        normalizeChar, bracketEscape, balance_tags, balanceGo, popThrough,
        isCloseTag, isVoidOpen, closeFormOf, voidElements, isWordChar, reinsertGo,
        digitsToNat, digitVal, String.join, List.dropWhile, List.takeWhile]
    rw [h1]
    decide
  exact ⟨hpre, C7_idempotent "a<b>x" ["b"] hpre⟩

end Sanitize
